import Mathlib

/-!
# FIFO reference model (src/dpi/fifo_model.c)

A shallow embedding of the DPI-C FIFO golden model.  The file-scope statics of
`fifo_model.c` become the fields of `FifoState`; every C function becomes a
function from the state before the call to the returned value and the state
after it.  `int` values are mathematical integers, `unsigned char` values are
naturals.  The operations on which C leaves the behaviour undefined (signed
overflow, `%` by zero, an array index outside `fifo_mem`) return `none`.
-/

set_option maxRecDepth 20000

namespace FifoModel

/-- The macro `MAX_DEPTH`: the number of bytes of `fifo_mem`. -/
def MAX_DEPTH : Nat := 256

/-- Smallest value of a 32-bit C `int`. -/
def INT_MIN : Int := -2147483648

/-- Largest value of a 32-bit C `int`. -/
def INT_MAX : Int := 2147483647

/-- The static variables of `fifo_model.c`. -/
structure FifoState where
  fifo_mem : List Nat
  head : Int
  tail : Int
  count : Int
  depth : Int
  overflow_flag : Int
  underflow_flag : Int
deriving DecidableEq

/-- The values given by the static initialisers: zeroed storage, `depth = 16`. -/
def staticInit : FifoState :=
  { fifo_mem := List.replicate MAX_DEPTH 0, head := 0, tail := 0, count := 0,
    depth := 16, overflow_flag := 0, underflow_flag := 0 }

/-- The array `fifo_mem` has exactly `MAX_DEPTH` cells. -/
def StorageOk (s : FifoState) : Prop := s.fifo_mem.length = MAX_DEPTH

instance (s : FifoState) : Decidable (StorageOk s) := by
  unfold StorageOk; infer_instance

/-- A value of type `int`. -/
def IsInt (x : Int) : Prop := INT_MIN ≤ x ∧ x ≤ INT_MAX

instance (x : Int) : Decidable (IsInt x) := by
  unfold IsInt; infer_instance

/-- The states the C variables can hold: `fifo_mem` has `MAX_DEPTH` cells and
the `int` variables are in the range of `int`. -/
def WellTyped (s : FifoState) : Prop :=
  StorageOk s ∧ IsInt s.head ∧ IsInt s.tail ∧ IsInt s.count ∧ IsInt s.depth ∧
  IsInt s.overflow_flag ∧ IsInt s.underflow_flag

instance (s : FifoState) : Decidable (WellTyped s) := by
  unfold WellTyped; infer_instance

/-- Signed `int` addition; overflow is undefined. -/
def intAdd (a b : Int) : Option Int :=
  if INT_MIN ≤ a + b ∧ a + b ≤ INT_MAX then some (a + b) else none

/-- The C operator `%` on `int`: truncated remainder, undefined for a zero
divisor and for `INT_MIN % -1`. -/
def intRem (a b : Int) : Option Int :=
  if b = 0 then none
  else if a = INT_MIN ∧ b = -1 then none
  else some (Int.tmod a b)

/-- The read `fifo_mem[i]`; undefined outside the array. -/
def loadMem (m : List Nat) (i : Int) : Option Nat :=
  if 0 ≤ i ∧ i < MAX_DEPTH then m[i.toNat]? else none

/-- The write `fifo_mem[i] = v`; undefined outside the array. -/
def storeMem (m : List Nat) (i : Int) (v : Nat) : Option (List Nat) :=
  if 0 ≤ i ∧ i < MAX_DEPTH ∧ i.toNat < m.length then some (m.set i.toNat v) else none

/-- The function `c_fifo_init`: caps the depth at `MAX_DEPTH`, resets indices,
count and flags, and zeroes the whole array. -/
def c_fifo_init (_s : FifoState) (fifo_depth : Int) : FifoState :=
  let fifo_depth := if fifo_depth > MAX_DEPTH then (MAX_DEPTH : Int) else fifo_depth
  { fifo_mem := List.replicate MAX_DEPTH 0
    head := 0
    tail := 0
    count := 0
    depth := fifo_depth
    overflow_flag := 0
    underflow_flag := 0 }

/-- The function `c_fifo_push`: returns `0` on success, `-1` on overflow. -/
def c_fifo_push (s : FifoState) (data : Nat) : Option (Int × FifoState) :=
  if s.count ≥ s.depth then
    some (-1, { s with overflow_flag := 1 })
  else do
    let mem ← storeMem s.fifo_mem s.tail data
    let t ← intAdd s.tail 1
    let tail ← intRem t s.depth
    let count ← intAdd s.count 1
    some (0, { s with fifo_mem := mem, tail := tail, count := count })

/-- The function `c_fifo_pop`: returns the byte at `head`, or `0xFF` when empty. -/
def c_fifo_pop (s : FifoState) : Option (Nat × FifoState) :=
  if s.count ≤ 0 then
    some (0xFF, { s with underflow_flag := 1 })
  else do
    let data ← loadMem s.fifo_mem s.head
    let h ← intAdd s.head 1
    let head ← intRem h s.depth
    let count ← intAdd s.count (-1)
    some (data, { s with head := head, count := count })

/-- The function `c_fifo_count`. -/
def c_fifo_count (s : FifoState) : Int × FifoState := (s.count, s)

/-- The function `c_fifo_is_empty`. -/
def c_fifo_is_empty (s : FifoState) : Int × FifoState :=
  (if s.count = 0 then 1 else 0, s)

/-- The function `c_fifo_is_full`. -/
def c_fifo_is_full (s : FifoState) : Int × FifoState :=
  (if s.count ≥ s.depth then 1 else 0, s)

/-- The function `c_fifo_almost_full`. -/
def c_fifo_almost_full (s : FifoState) (threshold : Int) : Int × FifoState :=
  (if s.count ≥ threshold then 1 else 0, s)

/-- The function `c_fifo_clear`: indices and count to zero, flags untouched. -/
def c_fifo_clear (s : FifoState) : FifoState :=
  { s with head := 0, tail := 0, count := 0 }

/-- The function `c_fifo_peek`: the byte `index` places after `head`, or `0xFF`
for an index outside `[0, count)`. -/
def c_fifo_peek (s : FifoState) (index : Int) : Option (Nat × FifoState) :=
  if index < 0 ∨ index ≥ s.count then
    some (0xFF, s)
  else do
    let a ← intAdd s.head index
    let k ← intRem a s.depth
    let data ← loadMem s.fifo_mem k
    some (data, s)

/-- The function `c_fifo_get_overflow`: returns the flag and resets it. -/
def c_fifo_get_overflow (s : FifoState) : Int × FifoState :=
  (s.overflow_flag, { s with overflow_flag := 0 })

/-- The function `c_fifo_get_underflow`: returns the flag and resets it. -/
def c_fifo_get_underflow (s : FifoState) : Int × FifoState :=
  (s.underflow_flag, { s with underflow_flag := 0 })

/-- One call of the interface other than `c_fifo_init`. -/
inductive FifoCall where
  | push (data : Nat)
  | pop
  | count
  | is_empty
  | is_full
  | almost_full (threshold : Int)
  | clear
  | peek (index : Int)
  | get_overflow
  | get_underflow
deriving DecidableEq

/-- The state after one call; `none` when the call has undefined behaviour. -/
def callState (s : FifoState) : FifoCall → Option FifoState
  | .push data => (c_fifo_push s data).map Prod.snd
  | .pop => (c_fifo_pop s).map Prod.snd
  | .count => some (c_fifo_count s).2
  | .is_empty => some (c_fifo_is_empty s).2
  | .is_full => some (c_fifo_is_full s).2
  | .almost_full t => some (c_fifo_almost_full s t).2
  | .clear => some (c_fifo_clear s)
  | .peek i => (c_fifo_peek s i).map Prod.snd
  | .get_overflow => some (c_fifo_get_overflow s).2
  | .get_underflow => some (c_fifo_get_underflow s).2

/-- The state after a sequence of calls made one after the other. -/
def runCalls (s : FifoState) : List FifoCall → Option FifoState
  | [] => some s
  | c :: cs =>
    match callState s c with
    | none => none
    | some s' => runCalls s' cs

/-- The states the model can be in after `c_fifo_init(d)` followed by any finite
sequence of calls other than `c_fifo_init`. -/
def ReachableAfterInit (d : Int) (s : FifoState) : Prop :=
  ∃ (s0 : FifoState) (calls : List FifoCall), runCalls (c_fifo_init s0 d) calls = some s

/-- The caller pushing the bytes of a list one after the other: the returned
values in call order and the final state. -/
def pushAll (s : FifoState) : List Nat → Option (List Int × FifoState)
  | [] => some ([], s)
  | b :: bs =>
    match c_fifo_push s b with
    | none => none
    | some (r, s1) =>
      match pushAll s1 bs with
      | none => none
      | some (rs, s2) => some (r :: rs, s2)

/-- The caller popping `n` times in a row: the returned bytes in call order and
the final state. -/
def popN (s : FifoState) : Nat → Option (List Nat × FifoState)
  | 0 => some ([], s)
  | n + 1 =>
    match c_fifo_pop s with
    | none => none
    | some (x, s1) =>
      match popN s1 n with
      | none => none
      | some (xs, s2) => some (x :: xs, s2)

/-- The queue a state stands for: the `count` bytes from `head` on, oldest first,
with indices wrapping at `depth`. -/
def contents (s : FifoState) : List Nat :=
  (List.range s.count.toNat).map
    (fun (i : Nat) => s.fifo_mem.getD ((s.head + (i : Int)) % s.depth).toNat 0)

/-- The index and occupancy invariant of a FIFO of depth `d`. -/
def Inv (d : Int) (s : FifoState) : Prop :=
  s.depth = d ∧ 1 ≤ d ∧ d ≤ MAX_DEPTH ∧ StorageOk s ∧
  0 ≤ s.count ∧ s.count ≤ d ∧ 0 ≤ s.head ∧ s.head < d ∧
  s.tail = (s.head + s.count) % d

instance (d : Int) (s : FifoState) : Decidable (Inv d s) := by
  unfold Inv; infer_instance

/-- A full FIFO of depth 2 holding the bytes 1 and 2. -/
def fullOfTwo : FifoState :=
  { fifo_mem := [1, 2] ++ List.replicate 254 0, head := 0, tail := 0, count := 2,
    depth := 2, overflow_flag := 0, underflow_flag := 0 }

/-- The state after `c_fifo_init(2); c_fifo_push(0xFF)`. -/
def afterPushFF : FifoState :=
  { fifo_mem := [0xFF] ++ List.replicate 255 0, head := 0, tail := 1, count := 1,
    depth := 2, overflow_flag := 0, underflow_flag := 0 }

/-- The state after `c_fifo_init(4)` and pushes of 10, 20, 30. -/
def afterThreePushes : FifoState :=
  { fifo_mem := [10, 20, 30] ++ List.replicate 253 0, head := 0, tail := 3, count := 3,
    depth := 4, overflow_flag := 0, underflow_flag := 0 }

/-- Any call of the interface, `c_fifo_init` included. -/
inductive FifoOp where
  | init (fifo_depth : Int)
  | call (c : FifoCall)
deriving DecidableEq

/-- The state after one call of the interface; `none` when the call has
undefined behaviour. -/
def opState (s : FifoState) : FifoOp → Option FifoState
  | .init fifo_depth => some (c_fifo_init s fifo_depth)
  | .call c => callState s c

/-- The state after a sequence of interface calls, `c_fifo_init` included. -/
def runOps (s : FifoState) : List FifoOp → Option FifoState
  | [] => some s
  | o :: os =>
    match opState s o with
    | none => none
    | some s' => runOps s' os

/-- The states in which no call can go wrong: either the depth is not positive
and the FIFO holds nothing, or the index invariant holds for the depth. -/
def NoAbort (s : FifoState) : Prop :=
  (s.depth ≤ 0 ∧ s.count = 0) ∨ Inv s.depth s

/-- The storage cells from position `d` on hold the zero written by
`c_fifo_init`. -/
def UpperZero (d : Int) (s : FifoState) : Prop :=
  ∀ i : Nat, d ≤ (i : Int) → i < MAX_DEPTH → s.fifo_mem[i]? = some 0

/-- The index of the write `fifo_mem[tail] = data` of `c_fifo_push`; `none` when
the call returns before it. -/
def pushWriteIndex (s : FifoState) : Option Int :=
  if s.count ≥ s.depth then none else some s.tail

/-- The index of the read `fifo_mem[head]` of `c_fifo_pop`; `none` when the call
returns before it. -/
def popReadIndex (s : FifoState) : Option Int :=
  if s.count ≤ 0 then none else some s.head

/-- The index of the read `fifo_mem[(head + index) % depth]` of `c_fifo_peek`;
`none` when the call returns before it or the index expression is undefined. -/
def peekReadIndex (s : FifoState) (index : Int) : Option Int :=
  if index < 0 ∨ index ≥ s.count then none
  else do
    let a ← intAdd s.head index
    intRem a s.depth

/-- The calls that act on the queue: push, pop and clear. -/
inductive QueueOp where
  | push (data : Nat)
  | pop
  | clear
deriving DecidableEq

/-- One queue call on the model: the value it returns (nothing for the `void`
function `c_fifo_clear`) and the state after it. -/
def queueStep (s : FifoState) : QueueOp → Option (List Int × FifoState)
  | .push data => (c_fifo_push s data).map (fun p => ([p.1], p.2))
  | .pop => (c_fifo_pop s).map (fun p => ([(p.1 : Int)], p.2))
  | .clear => some ([], c_fifo_clear s)

/-- A sequence of queue calls on the model: the returned values in call order
and the final state. -/
def runQueue (s : FifoState) : List QueueOp → Option (List Int × FifoState)
  | [] => some ([], s)
  | o :: os =>
    match queueStep s o with
    | none => none
    | some (r, s1) =>
      match runQueue s1 os with
      | none => none
      | some (rs, s2) => some (r ++ rs, s2)

/-- Abstract bounded queue, one call: a push on a list shorter than `d` returns
0 and appends, a push on a list of length `d` returns -1 and changes nothing, a
pop returns and removes the first element or returns `0xFF` on the empty list,
clear gives the empty list. -/
def absStep (d : Int) (l : List Nat) : QueueOp → List Int × List Nat
  | .push data => if (l.length : Int) < d then ([0], l ++ [data]) else ([-1], l)
  | .pop =>
    match l with
    | [] => ([0xFF], [])
    | x :: rest => ([(x : Int)], rest)
  | .clear => ([], [])

/-- Abstract bounded queue, a sequence of calls: the returned values in call
order and the final list. -/
def absRun (d : Int) (l : List Nat) : List QueueOp → List Int × List Nat
  | [] => ([], l)
  | o :: os =>
    ((absStep d l o).1 ++ (absRun d (absStep d l o).2 os).1,
      (absRun d (absStep d l o).2 os).2)

/-- A full FIFO of depth 2 with both sticky flags latched. -/
def bothFlagsSet : FifoState :=
  { fifo_mem := [1, 2] ++ List.replicate 254 0, head := 0, tail := 0, count := 2,
    depth := 2, overflow_flag := 1, underflow_flag := 1 }

/-- A call sequence with overflowing pushes, underflowing pops, a clear, peeks,
flag reads and observers. -/
def mixedCalls : List FifoCall :=
  [.push 1, .push 2, .push 3, .peek 1, .pop, .get_overflow, .push 4, .is_full,
    .pop, .pop, .pop, .is_empty, .push 5, .clear, .count, .almost_full 1,
    .peek (-1), .get_underflow]

/-- Queue calls on a FIFO of depth 2 that overflow, wrap the indices around,
clear with bytes left in storage and underflow. -/
def wrapAroundOps : List QueueOp :=
  [.push 1, .push 2, .push 3, .pop, .push 4, .pop, .clear, .pop, .push 5, .push 6,
    .pop, .push 7, .pop, .pop, .pop]

end FifoModel

/-!
# Test utilities (src/dpi/test_utils.c)

The array helpers of `test_utils.c`.  A caller's buffer is a list of bytes; a
read or write outside the list is undefined and returns `none`.  An `int`
operation whose result leaves the 32-bit range is undefined as well and
returns `none` (`intResult`).  A `for` loop is a recursive function that takes
the number of times its condition may still be evaluated; the functions pass a
number that covers every iteration.
-/

namespace TestUtils

/-- Smallest value of a 32-bit C `int`. -/
def INT_MIN : Int := -2147483648

/-- Largest value of a 32-bit C `int`. -/
def INT_MAX : Int := 2147483647

/-- The result of an `int` operation whose mathematical value is `x`: `x`
itself inside the range of `int`; signed overflow is undefined. -/
def intResult (x : Int) : Option Int :=
  if INT_MIN ≤ x ∧ x ≤ INT_MAX then some x else none

/-- The cast `(unsigned char)x`: reduction modulo 256. -/
def toUChar (x : Int) : Nat := (x % 256).toNat

/-- The read `a[i]`; undefined outside the buffer. -/
def load (a : List Nat) (i : Int) : Option Nat :=
  if 0 ≤ i then a[i.toNat]? else none

/-- The write `a[i] = v`; undefined outside the buffer. -/
def store (a : List Nat) (i : Int) (v : Nat) : Option (List Nat) :=
  if 0 ≤ i ∧ i.toNat < a.length then some (a.set i.toNat v) else none

/-- The loop `for (i = ...; i < size; i++) data[i] = value(i);` shared by the
pattern generators; `value i` is `none` when the expression is undefined. -/
def fillLoop (value : Int → Option Nat) (size : Int) :
    Nat → Int → List Nat → Option (List Nat)
  | 0, _, _ => none
  | fuel + 1, i, data =>
    if i < size then
      match value i with
      | none => none
      | some v =>
        match store data i v with
        | none => none
        | some data1 =>
          match intResult (i + 1) with
          | none => none
          | some i1 => fillLoop value size fuel i1 data1
    else some data

/-- The function `c_generate_incrementing`: `data[i] = (unsigned char)((start + i) % 256)`. -/
def c_generate_incrementing (data : List Nat) (size : Int) (start : Nat) :
    Option (List Nat) :=
  fillLoop
    (fun i => (intResult ((start : Int) + i)).map (fun x => toUChar (Int.tmod x 256)))
    size (size.toNat + 1) 0 data

/-- The function `c_generate_decrementing`: `data[i] = (unsigned char)((start - i) % 256)`. -/
def c_generate_decrementing (data : List Nat) (size : Int) (start : Nat) :
    Option (List Nat) :=
  fillLoop
    (fun i => (intResult ((start : Int) - i)).map (fun x => toUChar (Int.tmod x 256)))
    size (size.toNat + 1) 0 data

/-- The index expression `size - 1 - i` of `c_reverse_array`. -/
def mirrorIndex (size i : Int) : Option Int :=
  match intResult (size - 1) with
  | none => none
  | some a => intResult (a - i)

/-- The loop of `c_reverse_array`: swaps `data[i]` and `data[size - 1 - i]` while
`i < size / 2`. -/
def reverseLoop (size : Int) : Nat → Int → List Nat → Option (List Nat)
  | 0, _, _ => none
  | fuel + 1, i, data =>
    if i < Int.tdiv size 2 then
      match load data i with
      | none => none
      | some temp =>
        match (mirrorIndex size i).bind (load data) with
        | none => none
        | some other =>
          match store data i other with
          | none => none
          | some data1 =>
            match (mirrorIndex size i).bind (fun k => store data1 k temp) with
            | none => none
            | some data2 =>
              match intResult (i + 1) with
              | none => none
              | some i1 => reverseLoop size fuel i1 data2
    else some data

/-- The function `c_reverse_array`. -/
def c_reverse_array (data : List Nat) (size : Int) : Option (List Nat) :=
  reverseLoop size (size.toNat / 2 + 1) 0 data

/-- The inner loop of `c_find_pattern` at position `i`: the value of `match`
when the loop ends, `false` after the `break`. -/
def matchLoop (data pattern : List Nat) (pattern_size i : Int) : Nat → Int → Option Bool
  | 0, _ => none
  | fuel + 1, j =>
    if j < pattern_size then
      match (intResult (i + j)).bind (load data), load pattern j with
      | some a, some b =>
        if a ≠ b then some false
        else
          match intResult (j + 1) with
          | none => none
          | some j1 => matchLoop data pattern pattern_size i fuel j1
      | _, _ => none
    else some true

/-- The outer loop of `c_find_pattern`: the first `i` at which the inner loop
leaves `match` set, or -1 once `i` exceeds `data_size - pattern_size`. -/
def findLoop (data : List Nat) (data_size : Int) (pattern : List Nat)
    (pattern_size : Int) : Nat → Int → Option Int
  | 0, _ => none
  | fuel + 1, i =>
    match intResult (data_size - pattern_size) with
    | none => none
    | some limit =>
      if i ≤ limit then
        match matchLoop data pattern pattern_size i (pattern_size.toNat + 1) 0 with
        | none => none
        | some true => some i
        | some false =>
          match intResult (i + 1) with
          | none => none
          | some i1 => findLoop data data_size pattern pattern_size fuel i1
      else some (-1)

/-- The function `c_find_pattern`. -/
def c_find_pattern (data : List Nat) (data_size : Int) (pattern : List Nat)
    (pattern_size : Int) : Option Int :=
  if pattern_size > data_size then some (-1)
  else findLoop data data_size pattern pattern_size
    ((data_size - pattern_size).toNat + 2) 0

/-- The pattern of length `m` occurs in `data` at position `i`:
`data[i + j] == pattern[j]` for every `j < m`. -/
def MatchAt (data pattern : List Nat) (m i : Nat) : Prop :=
  ∀ j : Nat, j < m → data[i + j]? = pattern[j]?

end TestUtils

namespace FifoModel

/-! ## Arithmetic helpers -/

theorem emod_wrap (x d : Int) (h0 : 0 ≤ x) (h2 : x < 2 * d) :
    x % d = if x < d then x else x - d := by
  split
  · exact Int.emod_eq_of_lt h0 (by assumption)
  · rw [Int.emod_eq_sub_self_emod]
    exact Int.emod_eq_of_lt (by omega) (by omega)

theorem intRem_nonneg (a b : Int) (ha : 0 ≤ a) (hb : 0 < b) :
    intRem a b = some (a % b) := by
  unfold intRem
  rw [if_neg (by omega), if_neg (by unfold INT_MIN; omega),
    Int.tmod_eq_emod ha (by omega)]

theorem intAdd_ok (a b : Int) (h1 : INT_MIN ≤ a + b) (h2 : a + b ≤ INT_MAX) :
    intAdd a b = some (a + b) := by
  unfold intAdd
  rw [if_pos ⟨h1, h2⟩]

theorem loadMem_ok (m : List Nat) (i : Int) (h0 : 0 ≤ i) (h1 : i < MAX_DEPTH) :
    loadMem m i = m[i.toNat]? := by
  unfold loadMem
  rw [if_pos ⟨h0, h1⟩]

theorem storeMem_ok (m : List Nat) (i : Int) (v : Nat) (h0 : 0 ≤ i)
    (h1 : i < MAX_DEPTH) (hm : m.length = MAX_DEPTH) :
    storeMem m i v = some (m.set i.toNat v) := by
  unfold storeMem
  rw [if_pos]
  refine ⟨h0, h1, ?_⟩
  rw [hm]; omega

/-! ## Single calls -/

theorem push_ok (s : FifoState) (b : Nat) (hm : StorageOk s) (hcm : INT_MIN ≤ s.count)
    (hd1 : 1 ≤ s.depth) (hd2 : s.depth ≤ MAX_DEPTH) (ht0 : 0 ≤ s.tail)
    (ht1 : s.tail < s.depth) (hc : s.count < s.depth) :
    c_fifo_push s b = some (0, { s with
      fifo_mem := s.fifo_mem.set s.tail.toNat b
      tail := (s.tail + 1) % s.depth
      count := s.count + 1 }) := by
  have hM : (MAX_DEPTH : Int) = 256 := rfl
  unfold c_fifo_push
  rw [if_neg (by omega), storeMem_ok _ _ _ ht0 (by omega) hm,
    intAdd_ok _ _ (by unfold INT_MIN; omega) (by unfold INT_MAX; omega),
    intAdd_ok _ _ (by unfold INT_MIN at *; omega) (by unfold INT_MAX; omega)]
  simp only [Option.bind_eq_bind, Option.some_bind]
  rw [intRem_nonneg _ _ (by omega) (by omega)]
  rfl

theorem pop_ok (s : FifoState) (hcm : s.count ≤ INT_MAX)
    (hd1 : 1 ≤ s.depth) (hd2 : s.depth ≤ MAX_DEPTH) (hh0 : 0 ≤ s.head)
    (hh1 : s.head < s.depth) (hc : 0 < s.count) :
    c_fifo_pop s = (s.fifo_mem[s.head.toNat]?).map (fun x => (x, { s with
      head := (s.head + 1) % s.depth
      count := s.count - 1 })) := by
  have hM : (MAX_DEPTH : Int) = 256 := rfl
  unfold c_fifo_pop
  rw [if_neg (by omega), loadMem_ok _ _ hh0 (by omega),
    intAdd_ok _ _ (by unfold INT_MIN; omega) (by unfold INT_MAX; omega),
    intAdd_ok _ _ (by unfold INT_MIN at *; omega) (by unfold INT_MAX at *; omega)]
  cases s.fifo_mem[s.head.toNat]? with
  | none => rfl
  | some x =>
    simp only [Option.bind_eq_bind, Option.some_bind, Option.map_some']
    rw [intRem_nonneg _ _ (by omega) (by omega)]
    rfl

/-! ## The invariant -/

theorem init_inv (s0 : FifoState) (d : Int) (h1 : 1 ≤ d) (h2 : d ≤ MAX_DEPTH) :
    Inv d (c_fifo_init s0 d) := by
  have hM : (MAX_DEPTH : Int) = 256 := rfl
  have hd : (c_fifo_init s0 d).depth = d := by
    simp only [c_fifo_init]
    rw [if_neg (by omega)]
  refine ⟨hd, h1, h2, ?_, ?_, ?_, ?_, ?_, ?_⟩
  · simp [StorageOk, c_fifo_init]
  · simp [c_fifo_init]
  · simp only [c_fifo_init]; omega
  · simp [c_fifo_init]
  · simp only [c_fifo_init]; omega
  · simp [c_fifo_init]

theorem inv_tail (d : Int) (s : FifoState) (h : Inv d s) : 0 ≤ s.tail ∧ s.tail < d := by
  obtain ⟨_, h1, _, _, _, _, _, _, ht⟩ := h
  rw [ht]
  exact ⟨Int.emod_nonneg _ (by omega), Int.emod_lt_of_pos _ (by omega)⟩

theorem push_full (s : FifoState) (b : Nat) (h : s.count ≥ s.depth) :
    c_fifo_push s b = some (-1, { s with overflow_flag := 1 }) := by
  unfold c_fifo_push
  rw [if_pos h]

theorem pop_empty (s : FifoState) (h : s.count ≤ 0) :
    c_fifo_pop s = some (0xFF, { s with underflow_flag := 1 }) := by
  unfold c_fifo_pop
  rw [if_pos h]

theorem push_free (d : Int) (s : FifoState) (b : Nat) (h : Inv d s) (hc : s.count < d) :
    c_fifo_push s b = some (0, { s with
      fifo_mem := s.fifo_mem.set s.tail.toNat b
      tail := (s.tail + 1) % s.depth
      count := s.count + 1 }) := by
  have ht := inv_tail d s h
  obtain ⟨hd, h1, h2, hm, hc0, _, _, _, _⟩ := h
  subst hd
  exact push_ok s b hm (by unfold INT_MIN; omega) h1 h2 ht.1 ht.2 hc

theorem push_free_inv (d : Int) (s : FifoState) (b : Nat) (h : Inv d s) (hc : s.count < d) :
    Inv d { s with
      fifo_mem := s.fifo_mem.set s.tail.toNat b
      tail := (s.tail + 1) % s.depth
      count := s.count + 1 } := by
  obtain ⟨hd, h1, h2, hm, hc0, hc1, hh0, hh1, ht⟩ := h
  refine ⟨hd, h1, h2, ?_, ?_, ?_, hh0, hh1, ?_⟩
  · simpa [StorageOk] using hm
  · simp only; omega
  · simp only; omega
  · simp only
    rw [ht, hd, Int.emod_add_emod, Int.add_assoc]

theorem inv_load_head (d : Int) (s : FifoState) (h : Inv d s) :
    s.fifo_mem[s.head.toNat]? = some (s.fifo_mem.getD s.head.toNat 0) := by
  obtain ⟨_, _, h2, hm, _, _, hh0, hh1, _⟩ := h
  have hM : (MAX_DEPTH : Int) = 256 := rfl
  have hlt : s.head.toNat < s.fifo_mem.length := by
    rw [hm]; have : MAX_DEPTH = 256 := rfl
    omega
  rw [List.getD_eq_getElem?_getD, List.getElem?_eq_getElem hlt]
  rfl

theorem pop_avail (d : Int) (s : FifoState) (h : Inv d s) (hc : 0 < s.count) :
    c_fifo_pop s = some (s.fifo_mem.getD s.head.toNat 0, { s with
      head := (s.head + 1) % s.depth
      count := s.count - 1 }) := by
  have hl := inv_load_head d s h
  obtain ⟨hd, h1, h2, hm, hc0, hc1, hh0, hh1, _⟩ := h
  have hM : (MAX_DEPTH : Int) = 256 := rfl
  subst hd
  rw [pop_ok s (by unfold INT_MAX; omega) h1 h2 hh0 hh1 hc, hl]
  rfl

theorem pop_avail_inv (d : Int) (s : FifoState) (h : Inv d s) (hc : 0 < s.count) :
    Inv d { s with head := (s.head + 1) % s.depth, count := s.count - 1 } := by
  obtain ⟨hd, h1, h2, hm, hc0, hc1, hh0, hh1, ht⟩ := h
  refine ⟨hd, h1, h2, hm, ?_, ?_, ?_, ?_, ?_⟩
  · simp only; omega
  · simp only; omega
  · simp only; rw [hd]; exact Int.emod_nonneg _ (by omega)
  · simp only; rw [hd]; exact Int.emod_lt_of_pos _ (by omega)
  · simp only
    rw [ht, hd, Int.emod_add_emod]
    congr 1
    omega

theorem peek_outside (s : FifoState) (i : Int) (h : i < 0 ∨ i ≥ s.count) :
    c_fifo_peek s i = some (0xFF, s) := by
  unfold c_fifo_peek
  rw [if_pos h]

theorem peek_inside (d : Int) (s : FifoState) (i : Int) (h : Inv d s)
    (hi0 : 0 ≤ i) (hi1 : i < s.count) :
    c_fifo_peek s i =
      some (s.fifo_mem.getD ((s.head + i) % s.depth).toNat 0, s) := by
  obtain ⟨hd, h1, h2, hm, hc0, hc1, hh0, hh1, _⟩ := h
  have hM : (MAX_DEPTH : Int) = 256 := rfl
  have hN : MAX_DEPTH = 256 := rfl
  subst hd
  have hk0 : 0 ≤ (s.head + i) % s.depth := Int.emod_nonneg _ (by omega)
  have hk1 : (s.head + i) % s.depth < s.depth := Int.emod_lt_of_pos _ (by omega)
  have hlt : ((s.head + i) % s.depth).toNat < s.fifo_mem.length := by
    rw [hm]; omega
  unfold c_fifo_peek
  rw [if_neg (by omega),
    intAdd_ok _ _ (by unfold INT_MIN; omega) (by unfold INT_MAX; omega)]
  simp only [Option.bind_eq_bind, Option.some_bind]
  rw [intRem_nonneg _ _ (by omega) (by omega), Option.some_bind,
    loadMem_ok _ _ hk0 (by omega), List.getD_eq_getElem?_getD,
    List.getElem?_eq_getElem hlt]
  rfl

theorem callState_inv (d : Int) (s : FifoState) (c : FifoCall) (h : Inv d s) :
    ∃ s', callState s c = some s' ∧ Inv d s' := by
  cases c with
  | push data =>
    by_cases hc : s.count < d
    · exact ⟨_, by simp only [callState, push_free d s data h hc, Option.map_some'],
        push_free_inv d s data h hc⟩
    · have hge : s.count ≥ s.depth := by rw [h.1]; omega
      exact ⟨{ s with overflow_flag := 1 },
        by simp only [callState, push_full s data hge, Option.map_some'], h⟩
  | pop =>
    by_cases hc : 0 < s.count
    · exact ⟨_, by simp only [callState, pop_avail d s h hc, Option.map_some'],
        pop_avail_inv d s h hc⟩
    · exact ⟨{ s with underflow_flag := 1 },
        by simp only [callState, pop_empty s (by omega), Option.map_some'], h⟩
  | count => exact ⟨s, rfl, h⟩
  | is_empty => exact ⟨s, rfl, h⟩
  | is_full => exact ⟨s, rfl, h⟩
  | almost_full t => exact ⟨s, rfl, h⟩
  | clear =>
    obtain ⟨hd, h1, h2, hm, _, _, _, _, _⟩ := h
    refine ⟨_, rfl, hd, h1, h2, hm, ?_, ?_, ?_, ?_, ?_⟩ <;>
      simp only [c_fifo_clear] <;> first | omega | simp
  | peek i =>
    by_cases hi : i < 0 ∨ i ≥ s.count
    · exact ⟨s, by simp only [callState, peek_outside s i hi, Option.map_some'], h⟩
    · exact ⟨s, by simp only [callState, peek_inside d s i h (by omega) (by omega),
        Option.map_some'], h⟩
  | get_overflow => exact ⟨_, rfl, h⟩
  | get_underflow => exact ⟨_, rfl, h⟩

theorem runCalls_inv (d : Int) (calls : List FifoCall) :
    ∀ s : FifoState, Inv d s → ∃ s', runCalls s calls = some s' ∧ Inv d s' := by
  induction calls with
  | nil => intro s h; exact ⟨s, rfl, h⟩
  | cons c cs ih =>
    intro s h
    obtain ⟨s1, hs1, hi1⟩ := callState_inv d s c h
    obtain ⟨s2, hs2, hi2⟩ := ih s1 hi1
    exact ⟨s2, by simp only [runCalls, hs1, hs2], hi2⟩

theorem reachable_inv (d : Int) (s : FifoState) (h1 : 1 ≤ d) (h2 : d ≤ MAX_DEPTH)
    (hr : ReachableAfterInit d s) : Inv d s := by
  obtain ⟨s0, calls, hrun⟩ := hr
  obtain ⟨s', hs', hi⟩ := runCalls_inv d calls _ (init_inv s0 d h1 h2)
  rw [hrun] at hs'
  cases hs'
  exact hi

/-! ## The queue held by a state -/

theorem contents_length (s : FifoState) : (contents s).length = s.count.toNat := by
  simp [contents]

theorem slot_ne (h d : Int) (i j : Nat) (hh0 : 0 ≤ h) (hh1 : h < d) (hij : i < j)
    (hj : (j : Int) < d) : ((h + i) % d).toNat ≠ ((h + j) % d).toNat := by
  rw [emod_wrap _ _ (by omega) (by omega), emod_wrap _ _ (by omega) (by omega)]
  split_ifs <;> omega

theorem contents_push (d : Int) (s : FifoState) (b : Nat) (h : Inv d s)
    (hc : s.count < d) :
    contents { s with
      fifo_mem := s.fifo_mem.set s.tail.toNat b
      tail := (s.tail + 1) % s.depth
      count := s.count + 1 } = contents s ++ [b] := by
  have ht01 := inv_tail d s h
  obtain ⟨hd, h1, h2, hm, hc0, hc1, hh0, hh1, ht⟩ := h
  have hN : MAX_DEPTH = 256 := rfl
  obtain ⟨n, hn⟩ : ∃ n : Nat, s.count = n := ⟨s.count.toNat, by omega⟩
  have hlt : s.tail.toNat < s.fifo_mem.length := by rw [hm]; omega
  simp only [contents]
  rw [hn, hd]
  have e1 : ((n : Int) + 1).toNat = n + 1 := by omega
  have e2 : (n : Int).toNat = n := by omega
  rw [e1, e2, List.range_succ, List.map_append, List.map_singleton]
  rw [hn] at ht
  congr 1
  · apply List.map_congr_left
    intro i hi
    rw [List.mem_range] at hi
    rw [List.getD_eq_getElem?_getD, List.getD_eq_getElem?_getD, List.getElem?_set_ne]
    rw [ht]
    exact (slot_ne s.head d i n hh0 hh1 hi (by omega)).symm
  · rw [← ht, List.getD_eq_getElem?_getD, List.getElem?_set_self hlt]
    rfl

theorem contents_pop (d : Int) (s : FifoState) (h : Inv d s) (hc : 0 < s.count) :
    contents s = s.fifo_mem.getD s.head.toNat 0 ::
      contents { s with head := (s.head + 1) % s.depth, count := s.count - 1 } := by
  obtain ⟨hd, h1, h2, hm, hc0, hc1, hh0, hh1, ht⟩ := h
  obtain ⟨n, hn⟩ : ∃ n : Nat, s.count = (n : Int) + 1 := ⟨(s.count - 1).toNat, by omega⟩
  simp only [contents]
  rw [hn, hd]
  have e1 : ((n : Int) + 1).toNat = n + 1 := by omega
  have e2 : ((n : Int) + 1 - 1).toNat = n := by omega
  rw [e1, e2, List.range_succ_eq_map, List.map_cons, List.map_map]
  congr 1
  · have e3 : (s.head + ((0 : Nat) : Int)) % d = s.head := by
      rw [Int.emod_eq_of_lt (by omega) (by omega)]; omega
    rw [e3]
  · apply List.map_congr_left
    intro i _
    simp only [Function.comp]
    rw [Int.emod_add_emod]
    congr 3
    omega

theorem contents_getElem? (s : FifoState) (i : Nat) (hi : (i : Int) < s.count) :
    (contents s)[i]? = some (s.fifo_mem.getD ((s.head + (i : Int)) % s.depth).toNat 0) := by
  have hlt : i < s.count.toNat := by omega
  simp only [contents, List.getElem?_map, List.getElem?_range hlt, Option.map_some']

theorem pushAll_spec (d : Int) (bs : List Nat) :
    ∀ s : FifoState, Inv d s → s.count + (bs.length : Int) ≤ d →
      ∃ s', pushAll s bs = some (List.replicate bs.length 0, s') ∧ Inv d s' ∧
        contents s' = contents s ++ bs ∧ s'.count = s.count + (bs.length : Int) ∧
        s'.overflow_flag = s.overflow_flag ∧ s'.underflow_flag = s.underflow_flag := by
  induction bs with
  | nil =>
    intro s h _
    exact ⟨s, rfl, h, by simp, by simp, rfl, rfl⟩
  | cons b bs ih =>
    intro s h hlen
    simp only [List.length_cons, Nat.cast_add, Nat.cast_one] at hlen
    have hc : s.count < d := by omega
    obtain ⟨s', hrun, hi, hcont, hcnt, hov, hun⟩ :=
      ih _ (push_free_inv d s b h hc) (by simp only; omega)
    refine ⟨s', ?_, hi, ?_, ?_, hov, hun⟩
    · simp only [pushAll, push_free d s b h hc, hrun, List.length_cons, List.replicate_succ]
    · rw [hcont, contents_push d s b h hc, List.append_assoc, List.singleton_append]
    · rw [hcnt]
      simp only [List.length_cons, Nat.cast_add, Nat.cast_one]
      omega

theorem popN_spec (d : Int) (n : Nat) :
    ∀ s : FifoState, Inv d s → (n : Int) ≤ s.count →
      ∃ s', popN s n = some ((contents s).take n, s') ∧ Inv d s' ∧
        contents s' = (contents s).drop n ∧ s'.count = s.count - (n : Int) ∧
        s'.overflow_flag = s.overflow_flag ∧ s'.underflow_flag = s.underflow_flag := by
  induction n with
  | zero =>
    intro s h _
    exact ⟨s, by simp [popN], h, by simp, by simp, rfl, rfl⟩
  | succ n ih =>
    intro s h hlen
    simp only [Nat.cast_add, Nat.cast_one] at hlen
    have hc : 0 < s.count := by omega
    obtain ⟨s', hrun, hi, hcont, hcnt, hov, hun⟩ :=
      ih _ (pop_avail_inv d s h hc) (by simp only; omega)
    refine ⟨s', ?_, hi, ?_, ?_, hov, hun⟩
    · simp only [popN, pop_avail d s h hc, hrun]
      rw [contents_pop d s h hc, List.take_succ_cons]
    · rw [hcont, contents_pop d s h hc, List.drop_succ_cons]
    · rw [hcnt]
      simp only [Nat.cast_add, Nat.cast_one]
      omega

/-! ## The claims -/

/-- C1 (FIFO ordering law): for a depth `d` with `1 ≤ d ≤ MAX_DEPTH`, from any
empty state reachable after `c_fifo_init(d)`, pushing at most `d` bytes returns
`0` every time, the same number of pops then returns exactly the pushed bytes in
push order, and both sticky flags keep the value they had before the calls. -/
theorem fifo_ordering_law (d : Int) (s : FifoState) (bs : List Nat)
    (hd1 : 1 ≤ d) (hd2 : d ≤ MAX_DEPTH) (hr : ReachableAfterInit d s)
    (he : s.count = 0) (hN : (bs.length : Int) ≤ d) :
    ∃ s1 s2, pushAll s bs = some (List.replicate bs.length 0, s1) ∧
      popN s1 bs.length = some (bs, s2) ∧
      s1.overflow_flag = s.overflow_flag ∧ s1.underflow_flag = s.underflow_flag ∧
      s2.overflow_flag = s.overflow_flag ∧ s2.underflow_flag = s.underflow_flag := by
  have hi := reachable_inv d s hd1 hd2 hr
  have hnil : contents s = [] := by simp [contents, he]
  obtain ⟨s1, hpush, hi1, hcont1, hcnt1, hov1, hun1⟩ :=
    pushAll_spec d bs s hi (by omega)
  obtain ⟨s2, hpop, _, _, _, hov2, hun2⟩ :=
    popN_spec d bs.length s1 hi1 (by omega)
  rw [hcont1, hnil, List.nil_append, List.take_length] at hpop
  exact ⟨s1, s2, hpush, hpop, hov1, hun1, hov2.trans hov1, hun2.trans hun1⟩

/-- C1 at `c_fifo_init(4)` with the bytes 1, 2, 3, 4. -/
theorem fifo_ordering_law_witness :
    ((1 : Int) ≤ 4 ∧ (4 : Int) ≤ MAX_DEPTH ∧
      ReachableAfterInit 4 (c_fifo_init staticInit 4) ∧
      (c_fifo_init staticInit 4).count = 0 ∧ (([1, 2, 3, 4] : List Nat).length : Int) ≤ 4) ∧
    ∃ s1 s2, pushAll (c_fifo_init staticInit 4) [1, 2, 3, 4] = some ([0, 0, 0, 0], s1) ∧
      popN s1 4 = some ([1, 2, 3, 4], s2) ∧
      s1.overflow_flag = 0 ∧ s1.underflow_flag = 0 ∧
      s2.overflow_flag = 0 ∧ s2.underflow_flag = 0 :=
  ⟨⟨by decide, by decide, ⟨staticInit, [], rfl⟩, rfl, by decide⟩,
    fifo_ordering_law 4 (c_fifo_init staticInit 4) [1, 2, 3, 4] (by decide) (by decide)
      ⟨staticInit, [], rfl⟩ rfl (by decide)⟩

/-- C2 (push on a full FIFO): when `count == depth`, `c_fifo_push` returns `-1`,
sets `overflow_flag` to 1 and leaves storage, head, tail, count, depth and
`underflow_flag` as they were. -/
theorem push_full_rejected (s : FifoState) (b : Nat) (h : s.count = s.depth) :
    ∃ s', c_fifo_push s b = some (-1, s') ∧ s'.overflow_flag = 1 ∧
      s'.fifo_mem = s.fifo_mem ∧ s'.head = s.head ∧ s'.tail = s.tail ∧
      s'.count = s.count ∧ s'.depth = s.depth ∧
      s'.underflow_flag = s.underflow_flag :=
  ⟨{ s with overflow_flag := 1 }, push_full s b (by omega), rfl, rfl, rfl, rfl, rfl, rfl, rfl⟩

/-- C2 at a full FIFO of depth 2. -/
theorem push_full_rejected_witness :
    fullOfTwo.count = fullOfTwo.depth ∧
    ∃ s', c_fifo_push fullOfTwo 9 = some (-1, s') ∧ s'.overflow_flag = 1 ∧
      s'.fifo_mem = fullOfTwo.fifo_mem ∧ s'.head = fullOfTwo.head ∧
      s'.tail = fullOfTwo.tail ∧ s'.count = fullOfTwo.count ∧
      s'.depth = fullOfTwo.depth ∧ s'.underflow_flag = fullOfTwo.underflow_flag :=
  ⟨by decide, push_full_rejected fullOfTwo 9 (by decide)⟩

/-- C3 (pop on an empty FIFO): when `count == 0`, `c_fifo_pop` returns `0xFF`,
sets `underflow_flag` to 1 and leaves count, head, tail, depth, storage and
`overflow_flag` as they were. -/
theorem pop_empty_rejected (s : FifoState) (h : s.count = 0) :
    ∃ s', c_fifo_pop s = some (0xFF, s') ∧ s'.underflow_flag = 1 ∧
      s'.count = s.count ∧ s'.head = s.head ∧ s'.tail = s.tail ∧
      s'.depth = s.depth ∧ s'.fifo_mem = s.fifo_mem ∧
      s'.overflow_flag = s.overflow_flag :=
  ⟨{ s with underflow_flag := 1 }, pop_empty s (by omega), rfl, rfl, rfl, rfl, rfl, rfl, rfl⟩

/-- C3 at the statically initialised model. -/
theorem pop_empty_rejected_witness :
    staticInit.count = 0 ∧
    ∃ s', c_fifo_pop staticInit = some (0xFF, s') ∧ s'.underflow_flag = 1 ∧
      s'.count = staticInit.count ∧ s'.head = staticInit.head ∧
      s'.tail = staticInit.tail ∧ s'.depth = staticInit.depth ∧
      s'.fifo_mem = staticInit.fifo_mem ∧ s'.overflow_flag = staticInit.overflow_flag :=
  ⟨by decide, pop_empty_rejected staticInit (by decide)⟩

/-- C4 (successful push): in a state with `1 ≤ depth ≤ MAX_DEPTH`,
`0 ≤ tail < depth` and `count < depth`, `c_fifo_push(b)` returns `0`; the new
storage is the old one with `b` at position `tail` and every other position
unchanged, the new tail is `(tail + 1) mod depth`, count grows by one, and head,
depth and both flags are unchanged. -/
theorem push_success (s : FifoState) (b : Nat) (hw : WellTyped s)
    (hd1 : 1 ≤ s.depth) (hd2 : s.depth ≤ MAX_DEPTH)
    (ht0 : 0 ≤ s.tail) (ht1 : s.tail < s.depth) (hc : s.count < s.depth) :
    ∃ s', c_fifo_push s b = some (0, s') ∧
      s'.fifo_mem = s.fifo_mem.set s.tail.toNat b ∧
      s'.fifo_mem.length = s.fifo_mem.length ∧
      s'.fifo_mem[s.tail.toNat]? = some b ∧
      (∀ j : Nat, j ≠ s.tail.toNat → s'.fifo_mem[j]? = s.fifo_mem[j]?) ∧
      s'.tail = (s.tail + 1) % s.depth ∧ s'.count = s.count + 1 ∧
      s'.head = s.head ∧ s'.depth = s.depth ∧
      s'.overflow_flag = s.overflow_flag ∧ s'.underflow_flag = s.underflow_flag := by
  have hM : (MAX_DEPTH : Int) = 256 := rfl
  have hlt : s.tail.toNat < s.fifo_mem.length := by
    rw [hw.1]; have : MAX_DEPTH = 256 := rfl
    omega
  refine ⟨_, push_ok s b hw.1 hw.2.2.2.1.1 hd1 hd2 ht0 ht1 hc, rfl, ?_, ?_, ?_,
    rfl, rfl, rfl, rfl, rfl, rfl⟩
  · exact List.length_set _ _ _
  · exact List.getElem?_set_self hlt
  · intro j hj
    exact List.getElem?_set_ne (Ne.symm hj)

/-- C4 at the statically initialised model (depth 16, empty), pushing 7. -/
theorem push_success_witness :
    (WellTyped staticInit ∧ 1 ≤ staticInit.depth ∧ staticInit.depth ≤ MAX_DEPTH ∧
      0 ≤ staticInit.tail ∧ staticInit.tail < staticInit.depth ∧
      staticInit.count < staticInit.depth) ∧
    ∃ s', c_fifo_push staticInit 7 = some (0, s') ∧
      s'.fifo_mem = staticInit.fifo_mem.set 0 7 ∧
      s'.fifo_mem.length = staticInit.fifo_mem.length ∧
      s'.fifo_mem[0]? = some 7 ∧
      (∀ j : Nat, j ≠ 0 → s'.fifo_mem[j]? = staticInit.fifo_mem[j]?) ∧
      s'.tail = 1 ∧ s'.count = 1 ∧ s'.head = 0 ∧ s'.depth = 16 ∧
      s'.overflow_flag = 0 ∧ s'.underflow_flag = 0 :=
  have hw : WellTyped staticInit := by decide
  ⟨⟨hw, by decide, by decide, by decide, by decide, by decide⟩,
    push_success staticInit 7 hw (by decide) (by decide) (by decide) (by decide)
      (by decide)⟩

/-- C5 (successful pop): in a state with `1 ≤ depth ≤ MAX_DEPTH`,
`0 ≤ head < depth` and `count > 0`, `c_fifo_pop` returns the byte stored at
`head`, the new head is `(head + 1) mod depth`, count shrinks by one, and
storage, tail, depth and both flags are unchanged; in particular a stored `0xFF`
is returned with `underflow_flag` untouched. -/
theorem pop_success (s : FifoState) (hw : WellTyped s)
    (hd1 : 1 ≤ s.depth) (hd2 : s.depth ≤ MAX_DEPTH)
    (hh0 : 0 ≤ s.head) (hh1 : s.head < s.depth) (hc : 0 < s.count) :
    ∃ x s', s.fifo_mem[s.head.toNat]? = some x ∧ c_fifo_pop s = some (x, s') ∧
      s'.head = (s.head + 1) % s.depth ∧ s'.count = s.count - 1 ∧
      s'.fifo_mem = s.fifo_mem ∧ s'.tail = s.tail ∧ s'.depth = s.depth ∧
      s'.overflow_flag = s.overflow_flag ∧ s'.underflow_flag = s.underflow_flag ∧
      (s.fifo_mem[s.head.toNat]? = some 0xFF → x = 0xFF) := by
  have hM : (MAX_DEPTH : Int) = 256 := rfl
  have hlt : s.head.toNat < s.fifo_mem.length := by
    rw [hw.1]; have : MAX_DEPTH = 256 := rfl
    omega
  have hload : s.fifo_mem[s.head.toNat]? = some (s.fifo_mem[s.head.toNat]) :=
    List.getElem?_eq_getElem hlt
  refine ⟨s.fifo_mem[s.head.toNat],
    { s with head := (s.head + 1) % s.depth, count := s.count - 1 },
    hload, ?_, rfl, rfl, rfl, rfl, rfl, rfl, rfl, ?_⟩
  · rw [pop_ok s hw.2.2.2.1.2 hd1 hd2 hh0 hh1 hc, hload]
    rfl
  · intro hff
    rw [hload] at hff
    exact Option.some.inj hff

/-- C5 on the scenario `c_fifo_init(2); c_fifo_push(0xFF); c_fifo_pop()`: the pop
returns `0xFF` and `c_fifo_get_underflow()` then returns 0. -/
theorem pop_success_witness :
    c_fifo_push (c_fifo_init staticInit 2) 0xFF = some (0, afterPushFF) ∧
    (WellTyped afterPushFF ∧ 1 ≤ afterPushFF.depth ∧ afterPushFF.depth ≤ MAX_DEPTH ∧
      0 ≤ afterPushFF.head ∧ afterPushFF.head < afterPushFF.depth ∧
      0 < afterPushFF.count) ∧
    ∃ s', c_fifo_pop afterPushFF = some (0xFF, s') ∧ s'.head = 1 ∧ s'.count = 0 ∧
      s'.underflow_flag = 0 ∧ (c_fifo_get_underflow s').1 = 0 := by
  have hw : WellTyped afterPushFF := by decide
  have hpush : c_fifo_push (c_fifo_init staticInit 2) 0xFF = some (0, afterPushFF) := by
    decide
  obtain ⟨x, s', hx, hpop, hhead, hcount, _, _, _, _, hun, hff⟩ :=
    pop_success afterPushFF hw (by decide) (by decide) (by decide) (by decide) (by decide)
  have hx255 : x = 0xFF := hff (by decide)
  subst hx255
  refine ⟨hpush, ⟨hw, by decide, by decide, by decide, by decide, by decide⟩,
    s', hpop, ?_, ?_, ?_, ?_⟩
  · rw [hhead]; decide
  · rw [hcount]; decide
  · rw [hun]; decide
  · simp only [c_fifo_get_underflow]; rw [hun]; decide

/-- C6 (clear): in every state `c_fifo_clear` sets head, tail and count to 0 and
leaves both sticky flags, the configured depth and the storage at their
pre-call values. -/
theorem clear_resets_indices_only (s : FifoState) :
    (c_fifo_clear s).head = 0 ∧ (c_fifo_clear s).tail = 0 ∧ (c_fifo_clear s).count = 0 ∧
    (c_fifo_clear s).overflow_flag = s.overflow_flag ∧
    (c_fifo_clear s).underflow_flag = s.underflow_flag ∧
    (c_fifo_clear s).depth = s.depth ∧ (c_fifo_clear s).fifo_mem = s.fifo_mem :=
  ⟨rfl, rfl, rfl, rfl, rfl, rfl, rfl⟩

/-- C7 (read-and-clear of the sticky flags): in every state `c_fifo_get_overflow`
returns the current `overflow_flag`, leaves it 0 and changes nothing else, so a
second call right after returns 0; the same holds for `c_fifo_get_underflow`
and `underflow_flag`. -/
theorem get_flag_reads_and_clears (s : FifoState) :
    ((c_fifo_get_overflow s).1 = s.overflow_flag ∧
      (c_fifo_get_overflow s).2 = { s with overflow_flag := 0 } ∧
      (c_fifo_get_overflow s).2.overflow_flag = 0 ∧
      (c_fifo_get_overflow s).2.underflow_flag = s.underflow_flag ∧
      (c_fifo_get_overflow (c_fifo_get_overflow s).2).1 = 0) ∧
    ((c_fifo_get_underflow s).1 = s.underflow_flag ∧
      (c_fifo_get_underflow s).2 = { s with underflow_flag := 0 } ∧
      (c_fifo_get_underflow s).2.underflow_flag = 0 ∧
      (c_fifo_get_underflow s).2.overflow_flag = s.overflow_flag ∧
      (c_fifo_get_underflow (c_fifo_get_underflow s).2).1 = 0) :=
  ⟨⟨rfl, rfl, rfl, rfl, rfl⟩, ⟨rfl, rfl, rfl, rfl, rfl⟩⟩

/-- C8 (initialise, upper clamp): for every prior state and every `d ≥ 1`,
`c_fifo_init(d)` gives depth `min(d, MAX_DEPTH)`, head, tail and count 0, both
flags 0 and `MAX_DEPTH` zero bytes of storage; for `d > MAX_DEPTH` the result is
the state after `c_fifo_init(MAX_DEPTH)`, whatever the prior states were. -/
theorem init_postcondition (s s2 : FifoState) (d : Int) (hd : 1 ≤ d) :
    c_fifo_init s d =
      { fifo_mem := List.replicate MAX_DEPTH 0, head := 0, tail := 0, count := 0,
        depth := min d MAX_DEPTH, overflow_flag := 0, underflow_flag := 0 } ∧
    (1 ≤ (c_fifo_init s d).depth ∧ (c_fifo_init s d).depth ≤ MAX_DEPTH) ∧
    (∀ i : Nat, i < MAX_DEPTH → (c_fifo_init s d).fifo_mem[i]? = some 0) ∧
    (d > MAX_DEPTH → c_fifo_init s d = c_fifo_init s2 MAX_DEPTH) := by
  have hM : (MAX_DEPTH : Int) = 256 := rfl
  have hdepth : (if d > (MAX_DEPTH : Int) then (MAX_DEPTH : Int) else d) = min d MAX_DEPTH := by
    split
    · rw [min_eq_right (by omega)]
    · rw [min_eq_left (by omega)]
  refine ⟨?_, ?_, ?_, ?_⟩
  · simp only [c_fifo_init, hdepth]
  · simp only [c_fifo_init, hdepth]
    exact ⟨le_min hd (by omega), min_le_right _ _⟩
  · intro i hi
    simp only [c_fifo_init, List.getElem?_replicate, if_pos hi]
  · intro hgt
    simp only [c_fifo_init, if_pos hgt, gt_iff_lt, lt_self_iff_false, if_false]

/-- C8 at `c_fifo_init(300)`, called on a full FIFO of depth 2. -/
theorem init_postcondition_witness :
    (1 : Int) ≤ 300 ∧
    (c_fifo_init fullOfTwo 300 =
      { fifo_mem := List.replicate MAX_DEPTH 0, head := 0, tail := 0, count := 0,
        depth := min 300 MAX_DEPTH, overflow_flag := 0, underflow_flag := 0 } ∧
    (1 ≤ (c_fifo_init fullOfTwo 300).depth ∧ (c_fifo_init fullOfTwo 300).depth ≤ MAX_DEPTH) ∧
    (∀ i : Nat, i < MAX_DEPTH → (c_fifo_init fullOfTwo 300).fifo_mem[i]? = some 0) ∧
    ((300 : Int) > MAX_DEPTH → c_fifo_init fullOfTwo 300 = c_fifo_init staticInit MAX_DEPTH)) :=
  ⟨by decide, init_postcondition fullOfTwo staticInit 300 (by decide)⟩

/-- C9, refuted as stated: `c_fifo_init(0)` leaves the configured depth 0, which
is below 1. -/
theorem init_zero_depth_not_clamped :
    (c_fifo_init staticInit 0).depth = 0 ∧
    ¬ (1 ≤ (c_fifo_init staticInit 0).depth ∧
      (c_fifo_init staticInit 0).depth ≤ MAX_DEPTH) := by
  decide

/-- C9, amended: `c_fifo_init` clamps its argument from above only. For every
`int` argument the configured depth is `min(requestedDepth, MAX_DEPTH)`, hence
at most `MAX_DEPTH`, and it is at least 1 exactly when the argument is. -/
theorem init_clamps_above_only (s : FifoState) (requestedDepth : Int) :
    (c_fifo_init s requestedDepth).depth = min requestedDepth MAX_DEPTH ∧
    (c_fifo_init s requestedDepth).depth ≤ MAX_DEPTH ∧
    (1 ≤ (c_fifo_init s requestedDepth).depth ↔ 1 ≤ requestedDepth) := by
  have hM : (MAX_DEPTH : Int) = 256 := rfl
  have hdepth : (c_fifo_init s requestedDepth).depth = min requestedDepth MAX_DEPTH := by
    simp only [c_fifo_init]
    split
    · rw [min_eq_right (by omega)]
    · rw [min_eq_left (by omega)]
  rw [hdepth]
  refine ⟨rfl, min_le_right _ _, ?_⟩
  rw [le_min_iff]
  constructor
  · intro h; exact h.1
  · intro h; exact ⟨h, by omega⟩

/-- C10 (peek): in a state reachable after `c_fifo_init(d)` with
`1 ≤ d ≤ MAX_DEPTH`, for `0 ≤ i < count` the call `c_fifo_peek(i)` returns the
byte that the last of `i + 1` consecutive pops returns, for `i < 0` or
`i ≥ count` it returns `0xFF`, and in both cases the state after the call is the
state before it. -/
theorem peek_matches_future_pop (d : Int) (s : FifoState) (i : Int)
    (hd1 : 1 ≤ d) (hd2 : d ≤ MAX_DEPTH) (hr : ReachableAfterInit d s) :
    (0 ≤ i → i < s.count →
      ∃ x xs s', c_fifo_peek s i = some (x, s) ∧
        popN s (i.toNat + 1) = some (xs, s') ∧
        xs.length = i.toNat + 1 ∧ xs[i.toNat]? = some x) ∧
    (i < 0 ∨ i ≥ s.count → c_fifo_peek s i = some (0xFF, s)) := by
  have hi := reachable_inv d s hd1 hd2 hr
  refine ⟨?_, peek_outside s i⟩
  intro h0 h1
  obtain ⟨s', hpop, _, _, _, _, _⟩ := popN_spec d (i.toNat + 1) s hi (by omega)
  have hget := contents_getElem? s i.toNat (by omega)
  have hcast : ((i.toNat : Nat) : Int) = i := by omega
  rw [hcast] at hget
  refine ⟨_, _, s', peek_inside d s i hi h0 h1, hpop, ?_, ?_⟩
  · rw [List.length_take, contents_length]
    omega
  · rw [List.getElem?_take_of_lt (by omega), hget]

/-- C10 at the state after `c_fifo_init(4)` and pushes of 10, 20, 30: peeking
index 1 gives 20, the second of two pops; index 3 is out of range. -/
theorem peek_matches_future_pop_witness :
    ((1 : Int) ≤ 4 ∧ (4 : Int) ≤ MAX_DEPTH ∧ ReachableAfterInit 4 afterThreePushes) ∧
    (∃ xs s', c_fifo_peek afterThreePushes 1 = some (20, afterThreePushes) ∧
        popN afterThreePushes 2 = some (xs, s') ∧
        xs.length = 2 ∧ xs[1]? = some 20) ∧
    c_fifo_peek afterThreePushes 3 = some (0xFF, afterThreePushes) := by
  have hr : ReachableAfterInit 4 afterThreePushes :=
    ⟨staticInit, [.push 10, .push 20, .push 30], by decide⟩
  have h := peek_matches_future_pop 4 afterThreePushes 1 (by decide) (by decide) hr
  have h3 := peek_matches_future_pop 4 afterThreePushes 3 (by decide) (by decide) hr
  obtain ⟨x, xs, s', hpeek, hpop, hlen, hx⟩ := h.1 (by decide) (by decide)
  have hx20 : x = 20 := by
    have hp : c_fifo_peek afterThreePushes 1 = some (20, afterThreePushes) := by decide
    rw [hp] at hpeek
    exact ((Prod.mk.inj (Option.some.inj hpeek)).1).symm
  subst hx20
  exact ⟨⟨by decide, by decide, hr⟩, ⟨xs, s', hpeek, hpop, hlen, hx⟩,
    h3.2 (Or.inr (by decide))⟩

/-! ## Frames of the call sequences -/

theorem pushAll_frame (d : Int) (bs : List Nat) :
    ∀ s : FifoState, Inv d s → s.count + (bs.length : Int) ≤ d →
      ∃ s', pushAll s bs = some (List.replicate bs.length 0, s') ∧ s'.head = s.head := by
  induction bs with
  | nil => intro s _ _; exact ⟨s, rfl, rfl⟩
  | cons b bs ih =>
    intro s h hlen
    simp only [List.length_cons, Nat.cast_add, Nat.cast_one] at hlen
    have hc : s.count < d := by omega
    obtain ⟨s', hrun, hh⟩ := ih _ (push_free_inv d s b h hc) (by simp only; omega)
    exact ⟨s', by simp only [pushAll, push_free d s b h hc, hrun, List.length_cons,
      List.replicate_succ], hh⟩

theorem popN_frame (d : Int) (n : Nat) :
    ∀ s : FifoState, Inv d s → (n : Int) ≤ s.count →
      ∃ s', popN s n = some ((contents s).take n, s') ∧ s'.tail = s.tail ∧
        s'.fifo_mem = s.fifo_mem := by
  induction n with
  | zero => intro s _ _; exact ⟨s, by simp [popN], rfl, rfl⟩
  | succ n ih =>
    intro s h hlen
    simp only [Nat.cast_add, Nat.cast_one] at hlen
    have hc : 0 < s.count := by omega
    obtain ⟨s', hrun, ht, hm⟩ := ih _ (pop_avail_inv d s h hc) (by simp only; omega)
    refine ⟨s', ?_, ht, hm⟩
    simp only [popN, pop_avail d s h hc, hrun]
    rw [contents_pop d s h hc, List.take_succ_cons]

theorem push_flags (s s' : FifoState) (b : Nat) (r : Int)
    (h : c_fifo_push s b = some (r, s')) :
    (s'.overflow_flag = s.overflow_flag ∨ s'.overflow_flag = 1) ∧
      s'.underflow_flag = s.underflow_flag := by
  unfold c_fifo_push at h
  split at h
  · cases h
    exact ⟨Or.inr rfl, rfl⟩
  · simp only [Option.bind_eq_bind, Option.bind_eq_some] at h
    obtain ⟨_, _, _, _, _, _, _, _, h⟩ := h
    cases h
    exact ⟨Or.inl rfl, rfl⟩

theorem pop_flags (s s' : FifoState) (x : Nat) (h : c_fifo_pop s = some (x, s')) :
    s'.overflow_flag = s.overflow_flag ∧
      (s'.underflow_flag = s.underflow_flag ∨ s'.underflow_flag = 1) := by
  unfold c_fifo_pop at h
  split at h
  · cases h
    exact ⟨rfl, Or.inr rfl⟩
  · simp only [Option.bind_eq_bind, Option.bind_eq_some] at h
    obtain ⟨_, _, _, _, _, _, _, _, h⟩ := h
    cases h
    exact ⟨rfl, Or.inl rfl⟩

theorem peek_state (s s' : FifoState) (i : Int) (x : Nat)
    (h : c_fifo_peek s i = some (x, s')) : s' = s := by
  unfold c_fifo_peek at h
  split at h
  · cases h; rfl
  · simp only [Option.bind_eq_bind, Option.bind_eq_some] at h
    obtain ⟨_, _, _, _, _, _, h⟩ := h
    cases h
    rfl

theorem callState_flags (s s' : FifoState) (c : FifoCall) (h : callState s c = some s') :
    (c ≠ FifoCall.get_overflow →
      s'.overflow_flag = s.overflow_flag ∨ s'.overflow_flag = 1) ∧
    (c ≠ FifoCall.get_underflow →
      s'.underflow_flag = s.underflow_flag ∨ s'.underflow_flag = 1) := by
  cases c with
  | push data =>
    simp only [callState, Option.map_eq_some'] at h
    obtain ⟨⟨r, s1⟩, hp, rfl⟩ := h
    have := push_flags s s1 data r hp
    exact ⟨fun _ => this.1, fun _ => Or.inl this.2⟩
  | pop =>
    simp only [callState, Option.map_eq_some'] at h
    obtain ⟨⟨x, s1⟩, hp, rfl⟩ := h
    have := pop_flags s s1 x hp
    exact ⟨fun _ => Or.inl this.1, fun _ => this.2⟩
  | peek i =>
    simp only [callState, Option.map_eq_some'] at h
    obtain ⟨⟨x, s1⟩, hp, rfl⟩ := h
    have := peek_state s s1 i x hp
    simp only at this
    subst this
    exact ⟨fun _ => Or.inl rfl, fun _ => Or.inl rfl⟩
  | count => cases h; exact ⟨fun _ => Or.inl rfl, fun _ => Or.inl rfl⟩
  | is_empty => cases h; exact ⟨fun _ => Or.inl rfl, fun _ => Or.inl rfl⟩
  | is_full => cases h; exact ⟨fun _ => Or.inl rfl, fun _ => Or.inl rfl⟩
  | almost_full t => cases h; exact ⟨fun _ => Or.inl rfl, fun _ => Or.inl rfl⟩
  | clear => cases h; exact ⟨fun _ => Or.inl rfl, fun _ => Or.inl rfl⟩
  | get_overflow => cases h; exact ⟨fun hne => absurd rfl hne, fun _ => Or.inl rfl⟩
  | get_underflow => cases h; exact ⟨fun _ => Or.inl rfl, fun hne => absurd rfl hne⟩

theorem runCalls_flags (calls : List FifoCall) :
    ∀ s s' : FifoState, runCalls s calls = some s' →
      (FifoCall.get_overflow ∉ calls → s.overflow_flag = 1 → s'.overflow_flag = 1) ∧
      (FifoCall.get_underflow ∉ calls → s.underflow_flag = 1 → s'.underflow_flag = 1) := by
  induction calls with
  | nil =>
    intro s s' h
    cases h
    exact ⟨fun _ h => h, fun _ h => h⟩
  | cons c cs ih =>
    intro s s' h
    simp only [runCalls] at h
    cases hc : callState s c with
    | none => rw [hc] at h; cases h
    | some s1 =>
      rw [hc] at h
      have hstep := callState_flags s s1 c hc
      have hrest := ih s1 s' h
      constructor
      · intro hmem hov
        simp only [List.mem_cons, not_or] at hmem
        refine hrest.1 hmem.2 ?_
        rcases hstep.1 (Ne.symm hmem.1) with e | e
        · rw [e, hov]
        · exact e
      · intro hmem hun
        simp only [List.mem_cons, not_or] at hmem
        refine hrest.2 hmem.2 ?_
        rcases hstep.2 (Ne.symm hmem.1) with e | e
        · rw [e, hun]
        · exact e

/-- C11 (fill and drain): for `1 ≤ d ≤ MAX_DEPTH` and any `d` bytes, after
`c_fifo_init(d)` the `d` pushes succeed and leave the FIFO full with
`count == d`; the `d` pops that follow return the bytes and leave it empty:
`c_fifo_count()` is 0, `c_fifo_is_empty()` is 1, head and tail are both back at
0, and both sticky flags are still 0. -/
theorem fill_and_drain_round_trip (d : Int) (s0 : FifoState) (bs : List Nat)
    (hd1 : 1 ≤ d) (hd2 : d ≤ MAX_DEPTH) (hlen : (bs.length : Int) = d) :
    ∃ s1 s2, pushAll (c_fifo_init s0 d) bs = some (List.replicate bs.length 0, s1) ∧
      (c_fifo_is_full s1).1 = 1 ∧ s1.count = d ∧
      popN s1 bs.length = some (bs, s2) ∧
      (c_fifo_count s2).1 = 0 ∧ (c_fifo_is_empty s2).1 = 1 ∧
      s2.head = s2.tail ∧ s2.head = 0 ∧ s2.tail = 0 ∧
      s1.overflow_flag = 0 ∧ s1.underflow_flag = 0 ∧
      s2.overflow_flag = 0 ∧ s2.underflow_flag = 0 := by
  have hi := init_inv s0 d hd1 hd2
  have hc0 : (c_fifo_init s0 d).count = 0 := rfl
  have hnil : contents (c_fifo_init s0 d) = [] := by simp [contents, hc0]
  obtain ⟨s1, hpush, hi1, hcont1, hcnt1, hov1, hun1⟩ :=
    pushAll_spec d bs _ hi (by rw [hc0]; omega)
  obtain ⟨s1', hpush', hhead1⟩ := pushAll_frame d bs _ hi (by rw [hc0]; omega)
  rw [hpush] at hpush'
  cases hpush'
  rw [hc0] at hcnt1
  have hcnt1' : s1.count = d := by omega
  obtain ⟨s2, hpop, hi2, _, hcnt2, hov2, hun2⟩ :=
    popN_spec d bs.length s1 hi1 (by omega)
  obtain ⟨s2', hpop', htail2, _⟩ := popN_frame d bs.length s1 hi1 (by omega)
  rw [hpop] at hpop'
  cases hpop'
  rw [hcont1, hnil, List.nil_append, List.take_length] at hpop
  have hc2 : s2.count = 0 := by omega
  have hh1 : s1.head = 0 := hhead1
  have ht1 : s1.tail = 0 := by
    rw [hi1.2.2.2.2.2.2.2.2, hh1, hcnt1', Int.zero_add, Int.emod_self]
  have ht2 : s2.tail = 0 := by rw [htail2, ht1]
  have hh2 : s2.head = 0 := by
    obtain ⟨_, _, _, _, _, _, h0, hlt, ht⟩ := hi2
    rw [hc2, Int.add_zero, Int.emod_eq_of_lt h0 hlt] at ht
    rw [← ht, ht2]
  refine ⟨s1, s2, hpush, ?_, hcnt1', hpop, hc2, ?_, by rw [hh2, ht2], hh2, ht2,
    hov1, hun1, hov2.trans hov1, hun2.trans hun1⟩
  · simp only [c_fifo_is_full]
    rw [if_pos]
    rw [hi1.1]
    omega
  · simp only [c_fifo_is_empty]
    rw [if_pos hc2]

/-- C11 at depth 2 with the bytes 5 and 6. -/
theorem fill_and_drain_round_trip_witness :
    ((1 : Int) ≤ 2 ∧ (2 : Int) ≤ MAX_DEPTH ∧ (([5, 6] : List Nat).length : Int) = 2) ∧
    ∃ s1 s2, pushAll (c_fifo_init staticInit 2) [5, 6] = some ([0, 0], s1) ∧
      (c_fifo_is_full s1).1 = 1 ∧ s1.count = 2 ∧
      popN s1 2 = some ([5, 6], s2) ∧
      (c_fifo_count s2).1 = 0 ∧ (c_fifo_is_empty s2).1 = 1 ∧
      s2.head = s2.tail ∧ s2.head = 0 ∧ s2.tail = 0 ∧
      s1.overflow_flag = 0 ∧ s1.underflow_flag = 0 ∧
      s2.overflow_flag = 0 ∧ s2.underflow_flag = 0 :=
  ⟨⟨by decide, by decide, by decide⟩,
    fill_and_drain_round_trip 2 staticInit [5, 6] (by decide) (by decide) (by decide)⟩

/-- C12 (sticky flags): a call of `c_fifo_push`, `c_fifo_pop`, `c_fifo_clear`,
`c_fifo_count`, `c_fifo_is_empty`, `c_fifo_is_full`, `c_fifo_almost_full` or
`c_fifo_peek` (indeed any call other than `c_fifo_get_overflow`) leaves an
`overflow_flag` of 1 at 1, and likewise for `underflow_flag` and
`c_fifo_get_underflow`; the same holds over any sequence of calls without the
matching flag read, while `c_fifo_init` and the matching read do reset the
flag; in a state that satisfies the index invariant every call returns. -/
theorem sticky_flags_kept (s : FifoState) :
    (∀ (c : FifoCall) (s' : FifoState), callState s c = some s' →
      (c ≠ FifoCall.get_overflow → s.overflow_flag = 1 → s'.overflow_flag = 1) ∧
      (c ≠ FifoCall.get_underflow → s.underflow_flag = 1 → s'.underflow_flag = 1)) ∧
    (∀ (calls : List FifoCall) (s' : FifoState), runCalls s calls = some s' →
      (FifoCall.get_overflow ∉ calls → s.overflow_flag = 1 → s'.overflow_flag = 1) ∧
      (FifoCall.get_underflow ∉ calls →
        s.underflow_flag = 1 → s'.underflow_flag = 1)) ∧
    ((c_fifo_clear s).overflow_flag = s.overflow_flag ∧
      (c_fifo_clear s).underflow_flag = s.underflow_flag ∧
      (c_fifo_count s).2 = s ∧ (c_fifo_is_empty s).2 = s ∧ (c_fifo_is_full s).2 = s ∧
      ∀ t, (c_fifo_almost_full s t).2 = s) ∧
    ((c_fifo_get_overflow s).2.overflow_flag = 0 ∧
      (c_fifo_get_underflow s).2.underflow_flag = 0 ∧
      ∀ d, (c_fifo_init s d).overflow_flag = 0 ∧ (c_fifo_init s d).underflow_flag = 0) ∧
    (∀ (d : Int) (c : FifoCall), Inv d s → ∃ s', callState s c = some s') := by
  refine ⟨?_, ?_, ⟨rfl, rfl, rfl, rfl, rfl, fun _ => rfl⟩, ⟨rfl, rfl, fun _ => ⟨rfl, rfl⟩⟩,
    fun d c h => (callState_inv d s c h).imp fun _ h' => h'.1⟩
  · intro c s' h
    have hf := callState_flags s s' c h
    constructor
    · intro hne hov
      rcases hf.1 hne with e | e
      · rw [e, hov]
      · exact e
    · intro hne hun
      rcases hf.2 hne with e | e
      · rw [e, hun]
      · exact e
  · intro calls s' h
    exact runCalls_flags calls s s' h

/-- C12 on a full FIFO with both flags latched: after a rejected push, two pops,
an underflowing pop, a clear, the observers and a peek, both flags are still 1. -/
theorem sticky_flags_kept_witness :
    ∃ s', runCalls bothFlagsSet
        [.push 9, .pop, .pop, .pop, .clear, .count, .is_empty, .is_full,
          .almost_full 1, .peek 0] = some s' ∧
      s'.overflow_flag = 1 ∧ s'.underflow_flag = 1 := by
  have hrun : ∃ s', runCalls bothFlagsSet
      [.push 9, .pop, .pop, .pop, .clear, .count, .is_empty, .is_full,
        .almost_full 1, .peek 0] = some s' := by
    have hi : Inv 2 bothFlagsSet := by decide
    obtain ⟨s', hs', _⟩ := runCalls_inv 2 _ bothFlagsSet hi
    exact ⟨s', hs'⟩
  obtain ⟨s', hs'⟩ := hrun
  have h := (sticky_flags_kept bothFlagsSet).2.1 _ s' hs'
  exact ⟨s', hs', h.1 (by decide) (by decide), h.2 (by decide) (by decide)⟩

/-- C13 (occupancy predicates): in a state reachable after `c_fifo_init(d)`
with `1 ≤ d ≤ MAX_DEPTH`, `c_fifo_is_empty()` is 1 exactly when `count == 0`,
`c_fifo_is_full()` is 1 exactly when `count == depth`, they are never both 1,
exactly one of EMPTY, PARTIAL and FULL holds, `c_fifo_count()` returns `count`,
`c_fifo_almost_full(t)` is 1 exactly when `count ≥ t`, and none of the four
observers changes the state. -/
theorem occupancy_predicates (d : Int) (s : FifoState)
    (hd1 : 1 ≤ d) (hd2 : d ≤ MAX_DEPTH) (hr : ReachableAfterInit d s) :
    ((c_fifo_is_empty s).1 = 1 ↔ s.count = 0) ∧
    ((c_fifo_is_full s).1 = 1 ↔ s.count = s.depth) ∧
    ¬ ((c_fifo_is_empty s).1 = 1 ∧ (c_fifo_is_full s).1 = 1) ∧
    ((s.count = 0 ∧ ¬ (0 < s.count ∧ s.count < s.depth) ∧ s.count ≠ s.depth) ∨
      (s.count ≠ 0 ∧ (0 < s.count ∧ s.count < s.depth) ∧ s.count ≠ s.depth) ∨
      (s.count ≠ 0 ∧ ¬ (0 < s.count ∧ s.count < s.depth) ∧ s.count = s.depth)) ∧
    (c_fifo_count s).1 = s.count ∧
    (∀ t : Int, (c_fifo_almost_full s t).1 = 1 ↔ s.count ≥ t) ∧
    ((c_fifo_count s).2 = s ∧ (c_fifo_is_empty s).2 = s ∧ (c_fifo_is_full s).2 = s ∧
      ∀ t : Int, (c_fifo_almost_full s t).2 = s) := by
  obtain ⟨hd, _, _, _, hc0, hc1, _, _, _⟩ := reachable_inv d s hd1 hd2 hr
  subst hd
  have he : (c_fifo_is_empty s).1 = 1 ↔ s.count = 0 := by
    simp only [c_fifo_is_empty]
    split
    · simp_all
    · simp_all
  have hf : (c_fifo_is_full s).1 = 1 ↔ s.count = s.depth := by
    simp only [c_fifo_is_full]
    split
    · constructor
      · intro _; omega
      · intro _; rfl
    · constructor
      · intro h; exact absurd h (by decide)
      · intro h; omega
  refine ⟨he, hf, ?_, ?_, rfl, ?_, rfl, rfl, rfl, fun _ => rfl⟩
  · rw [he, hf]
    omega
  · omega
  · intro t
    simp only [c_fifo_almost_full]
    split
    · simp_all
    · simp_all

/-- C13 at the state after `c_fifo_init(4)` and three pushes (PARTIAL). -/
theorem occupancy_predicates_witness :
    ((1 : Int) ≤ 4 ∧ (4 : Int) ≤ MAX_DEPTH ∧ ReachableAfterInit 4 afterThreePushes) ∧
    (c_fifo_is_empty afterThreePushes).1 = 0 ∧ (c_fifo_is_full afterThreePushes).1 = 0 ∧
    ((c_fifo_is_full afterThreePushes).1 = 1 ↔
      afterThreePushes.count = afterThreePushes.depth) ∧
    (c_fifo_count afterThreePushes).1 = 3 ∧
    ((c_fifo_almost_full afterThreePushes 3).1 = 1 ↔ afterThreePushes.count ≥ 3) := by
  have hr : ReachableAfterInit 4 afterThreePushes :=
    ⟨staticInit, [.push 10, .push 20, .push 30], by decide⟩
  have h := occupancy_predicates 4 afterThreePushes (by decide) (by decide) hr
  exact ⟨⟨by decide, by decide, hr⟩, by decide, by decide, h.2.1, h.2.2.2.2.1,
    h.2.2.2.2.2.1 3⟩

/-- C18 (index and occupancy invariant): for `1 ≤ d ≤ MAX_DEPTH`, every finite
sequence of calls other than `c_fifo_init` made after `c_fifo_init(d)` runs to
a state, and that state has depth `d`, `0 ≤ count ≤ depth`, `0 ≤ head < depth`
and `0 ≤ tail < depth`. -/
theorem index_occupancy_invariant (d : Int) (s0 : FifoState) (calls : List FifoCall)
    (hd1 : 1 ≤ d) (hd2 : d ≤ MAX_DEPTH) :
    (∃ s, runCalls (c_fifo_init s0 d) calls = some s) ∧
    ∀ s, runCalls (c_fifo_init s0 d) calls = some s →
      s.depth = d ∧ (0 ≤ s.count ∧ s.count ≤ s.depth) ∧
      (0 ≤ s.head ∧ s.head < s.depth) ∧ (0 ≤ s.tail ∧ s.tail < s.depth) := by
  obtain ⟨s1, hs1, hi⟩ := runCalls_inv d calls _ (init_inv s0 d hd1 hd2)
  refine ⟨⟨s1, hs1⟩, ?_⟩
  intro s hs
  rw [hs1] at hs
  cases hs
  have ht := inv_tail d s1 hi
  obtain ⟨hd, _, _, _, hc0, hc1, hh0, hh1, _⟩ := hi
  rw [hd]
  exact ⟨rfl, ⟨hc0, hc1⟩, ⟨hh0, hh1⟩, ht⟩

/-- C18 at depth 2 on a sequence with overflowing pushes, underflowing pops, a
clear, peeks, flag reads and observers. -/
theorem index_occupancy_invariant_witness :
    ((1 : Int) ≤ 2 ∧ (2 : Int) ≤ MAX_DEPTH) ∧
    (∃ s, runCalls (c_fifo_init staticInit 2) mixedCalls = some s) ∧
    ∀ s, runCalls (c_fifo_init staticInit 2) mixedCalls = some s →
      s.depth = 2 ∧ (0 ≤ s.count ∧ s.count ≤ s.depth) ∧
      (0 ≤ s.head ∧ s.head < s.depth) ∧ (0 ≤ s.tail ∧ s.tail < s.depth) :=
  ⟨⟨by decide, by decide⟩,
    index_occupancy_invariant 2 staticInit mixedCalls (by decide) (by decide)⟩

/-! ## Storage above the configured depth -/

theorem init_upperZero (s0 : FifoState) (d : Int) : UpperZero d (c_fifo_init s0 d) := by
  intro i _ hi
  simp only [c_fifo_init, List.getElem?_replicate, if_pos hi]

theorem callState_upper (d : Int) (s : FifoState) (c : FifoCall) (h : Inv d s)
    (hz : UpperZero d s) :
    ∃ s', callState s c = some s' ∧ Inv d s' ∧ UpperZero d s' := by
  cases c with
  | push data =>
    by_cases hc : s.count < d
    · refine ⟨_, by simp only [callState, push_free d s data h hc, Option.map_some'],
        push_free_inv d s data h hc, ?_⟩
      have ht := inv_tail d s h
      intro i hi1 hi2
      simp only
      rw [List.getElem?_set_ne (by omega)]
      exact hz i hi1 hi2
    · have hge : s.count ≥ s.depth := by rw [h.1]; omega
      exact ⟨{ s with overflow_flag := 1 },
        by simp only [callState, push_full s data hge, Option.map_some'], h, hz⟩
  | pop =>
    by_cases hc : 0 < s.count
    · exact ⟨_, by simp only [callState, pop_avail d s h hc, Option.map_some'],
        pop_avail_inv d s h hc, hz⟩
    · exact ⟨{ s with underflow_flag := 1 },
        by simp only [callState, pop_empty s (by omega), Option.map_some'], h, hz⟩
  | count => exact ⟨s, rfl, h, hz⟩
  | is_empty => exact ⟨s, rfl, h, hz⟩
  | is_full => exact ⟨s, rfl, h, hz⟩
  | almost_full t => exact ⟨s, rfl, h, hz⟩
  | clear =>
    obtain ⟨s', hs', hi'⟩ := callState_inv d s FifoCall.clear h
    have : s' = c_fifo_clear s := by cases hs'; rfl
    subst this
    exact ⟨_, hs', hi', hz⟩
  | peek i =>
    by_cases hi : i < 0 ∨ i ≥ s.count
    · exact ⟨s, by simp only [callState, peek_outside s i hi, Option.map_some'], h, hz⟩
    · exact ⟨s, by simp only [callState, peek_inside d s i h (by omega) (by omega),
        Option.map_some'], h, hz⟩
  | get_overflow => exact ⟨{ s with overflow_flag := 0 }, rfl, h, hz⟩
  | get_underflow => exact ⟨{ s with underflow_flag := 0 }, rfl, h, hz⟩

theorem runCalls_upper (d : Int) (calls : List FifoCall) :
    ∀ s : FifoState, Inv d s → UpperZero d s →
      ∃ s', runCalls s calls = some s' ∧ Inv d s' ∧ UpperZero d s' := by
  induction calls with
  | nil => intro s h hz; exact ⟨s, rfl, h, hz⟩
  | cons c cs ih =>
    intro s h hz
    obtain ⟨s1, hs1, hi1, hz1⟩ := callState_upper d s c h hz
    obtain ⟨s2, hs2, hi2, hz2⟩ := ih s1 hi1 hz1
    exact ⟨s2, by simp only [runCalls, hs1, hs2], hi2, hz2⟩

theorem inv_access_indices (d : Int) (s : FifoState) (h : Inv d s) :
    (∀ k, pushWriteIndex s = some k → 0 ≤ k ∧ k < d) ∧
    (∀ k, popReadIndex s = some k → 0 ≤ k ∧ k < d) ∧
    (∀ i : Int, 0 ≤ i → i < s.count →
      ∃ k, peekReadIndex s i = some k ∧ 0 ≤ k ∧ k < d) := by
  have ht := inv_tail d s h
  obtain ⟨hd, h1, h2, _, hc0, hc1, hh0, hh1, _⟩ := h
  have hM : (MAX_DEPTH : Int) = 256 := rfl
  refine ⟨?_, ?_, ?_⟩
  · intro k hk
    unfold pushWriteIndex at hk
    split at hk
    · cases hk
    · cases hk; exact ht
  · intro k hk
    unfold popReadIndex at hk
    split at hk
    · cases hk
    · cases hk; exact ⟨hh0, hh1⟩
  · intro i hi0 hi1
    refine ⟨(s.head + i) % d, ?_, Int.emod_nonneg _ (by omega), Int.emod_lt_of_pos _ (by omega)⟩
    unfold peekReadIndex
    rw [if_neg (by omega),
      intAdd_ok _ _ (by unfold INT_MIN; omega) (by unfold INT_MAX; omega)]
    simp only [Option.bind_eq_bind, Option.some_bind]
    rw [hd, intRem_nonneg _ _ (by omega) (by omega)]

/-- C19 (storage beyond the configured depth): for `1 ≤ d ≤ MAX_DEPTH`, every
finite sequence of calls other than `c_fifo_init` made after `c_fifo_init(d)`
runs to a state in which every storage position `i` with `d ≤ i < MAX_DEPTH`
still holds 0, and in which the index a push would write and the indices a pop
or a peek would read lie in `[0, d)`. -/
theorem storage_beyond_depth_untouched (d : Int) (s0 : FifoState)
    (calls : List FifoCall) (hd1 : 1 ≤ d) (hd2 : d ≤ MAX_DEPTH) :
    (∃ s, runCalls (c_fifo_init s0 d) calls = some s) ∧
    ∀ s, runCalls (c_fifo_init s0 d) calls = some s →
      (∀ i : Nat, d ≤ (i : Int) → i < MAX_DEPTH → s.fifo_mem[i]? = some 0) ∧
      (∀ k, pushWriteIndex s = some k → 0 ≤ k ∧ k < d) ∧
      (∀ k, popReadIndex s = some k → 0 ≤ k ∧ k < d) ∧
      (∀ i : Int, 0 ≤ i → i < s.count →
        ∃ k, peekReadIndex s i = some k ∧ 0 ≤ k ∧ k < d) := by
  obtain ⟨s1, hs1, hi, hz⟩ :=
    runCalls_upper d calls _ (init_inv s0 d hd1 hd2) (init_upperZero s0 d)
  refine ⟨⟨s1, hs1⟩, ?_⟩
  intro s hs
  rw [hs1] at hs
  cases hs
  exact ⟨hz, inv_access_indices d s1 hi⟩

/-- C19 at depth 2 on a sequence with overflowing pushes, underflowing pops, a
clear, peeks, flag reads and observers. -/
theorem storage_beyond_depth_untouched_witness :
    ((1 : Int) ≤ 2 ∧ (2 : Int) ≤ MAX_DEPTH) ∧
    (∃ s, runCalls (c_fifo_init staticInit 2) mixedCalls = some s) ∧
    ∀ s, runCalls (c_fifo_init staticInit 2) mixedCalls = some s →
      (∀ i : Nat, (2 : Int) ≤ (i : Int) → i < MAX_DEPTH → s.fifo_mem[i]? = some 0) ∧
      (∀ k, pushWriteIndex s = some k → 0 ≤ k ∧ k < 2) ∧
      (∀ k, popReadIndex s = some k → 0 ≤ k ∧ k < 2) ∧
      (∀ i : Int, 0 ≤ i → i < s.count →
        ∃ k, peekReadIndex s i = some k ∧ 0 ≤ k ∧ k < 2) :=
  ⟨⟨by decide, by decide⟩,
    storage_beyond_depth_untouched 2 staticInit mixedCalls (by decide) (by decide)⟩

/-! ## Calls from the static state, re-initialisation included -/

theorem init_noAbort (s : FifoState) (d : Int) : NoAbort (c_fifo_init s d) := by
  have hM : (MAX_DEPTH : Int) = 256 := rfl
  by_cases h0 : d ≤ 0
  · left
    simp only [c_fifo_init]
    rw [if_neg (by omega)]
    exact ⟨h0, trivial⟩
  · right
    by_cases h1 : d ≤ MAX_DEPTH
    · have hd : (c_fifo_init s d).depth = d := by
        simp only [c_fifo_init]
        rw [if_neg (by omega)]
      rw [hd]
      exact init_inv s d (by omega) h1
    · have he : c_fifo_init s d = c_fifo_init s MAX_DEPTH := by
        simp only [c_fifo_init]
        rw [if_pos (by omega), if_neg (by omega)]
      have hd : (c_fifo_init s (MAX_DEPTH : Int)).depth = MAX_DEPTH := by
        simp only [c_fifo_init]
        rw [if_neg (by omega)]
      rw [he, hd]
      exact init_inv s MAX_DEPTH (by omega) (by omega)

theorem lowDepth_call (s : FifoState) (c : FifoCall) (hd : s.depth ≤ 0)
    (hc : s.count = 0) :
    ∃ s', callState s c = some s' ∧ s'.depth = s.depth ∧ s'.count = 0 := by
  cases c with
  | push data =>
    exact ⟨{ s with overflow_flag := 1 },
      by simp only [callState, push_full s data (by omega), Option.map_some'], rfl, hc⟩
  | pop =>
    exact ⟨{ s with underflow_flag := 1 },
      by simp only [callState, pop_empty s (by omega), Option.map_some'], rfl, hc⟩
  | count => exact ⟨s, rfl, rfl, hc⟩
  | is_empty => exact ⟨s, rfl, rfl, hc⟩
  | is_full => exact ⟨s, rfl, rfl, hc⟩
  | almost_full t => exact ⟨s, rfl, rfl, hc⟩
  | clear => exact ⟨c_fifo_clear s, rfl, rfl, rfl⟩
  | peek i =>
    exact ⟨s, by simp only [callState, peek_outside s i (by omega), Option.map_some'],
      rfl, hc⟩
  | get_overflow => exact ⟨{ s with overflow_flag := 0 }, rfl, rfl, hc⟩
  | get_underflow => exact ⟨{ s with underflow_flag := 0 }, rfl, rfl, hc⟩

theorem lowDepth_runCalls (calls : List FifoCall) :
    ∀ s : FifoState, s.depth ≤ 0 → s.count = 0 →
      ∃ s', runCalls s calls = some s' ∧ s'.depth = s.depth ∧ s'.count = 0 := by
  induction calls with
  | nil => intro s _ hc; exact ⟨s, rfl, rfl, hc⟩
  | cons c cs ih =>
    intro s hd hc
    obtain ⟨s1, hs1, hd1, hc1⟩ := lowDepth_call s c hd hc
    obtain ⟨s2, hs2, hd2, hc2⟩ := ih s1 (by omega) hc1
    exact ⟨s2, by simp only [runCalls, hs1, hs2], by omega, hc2⟩

theorem opState_noAbort (s : FifoState) (o : FifoOp) (h : NoAbort s) :
    ∃ s', opState s o = some s' ∧ NoAbort s' := by
  cases o with
  | init d => exact ⟨_, rfl, init_noAbort s d⟩
  | call c =>
    rcases h with ⟨hd, hc⟩ | hi
    · obtain ⟨s', hs', hd', hc'⟩ := lowDepth_call s c hd hc
      exact ⟨s', hs', Or.inl ⟨by omega, hc'⟩⟩
    · obtain ⟨s', hs', hi'⟩ := callState_inv s.depth s c hi
      refine ⟨s', hs', Or.inr ?_⟩
      rw [hi'.1]
      exact hi'

theorem runOps_noAbort (ops : List FifoOp) :
    ∀ s : FifoState, NoAbort s → ∃ s', runOps s ops = some s' ∧ NoAbort s' := by
  induction ops with
  | nil => intro s h; exact ⟨s, rfl, h⟩
  | cons o os ih =>
    intro s h
    obtain ⟨s1, hs1, h1⟩ := opState_noAbort s o h
    obtain ⟨s2, hs2, h2⟩ := ih s1 h1
    exact ⟨s2, by simp only [runOps, hs1, hs2], h2⟩

theorem runOps_append (os1 os2 : List FifoOp) :
    ∀ s s1 : FifoState, runOps s os1 = some s1 →
      runOps s (os1 ++ os2) = runOps s1 os2 := by
  induction os1 with
  | nil => intro s s1 h; cases h; rfl
  | cons o os ih =>
    intro s s1 h
    simp only [runOps, List.cons_append] at h ⊢
    cases ho : opState s o with
    | none => rw [ho] at h; cases h
    | some s' =>
      rw [ho] at h
      simp only
      exact ih s' s1 h

theorem runOps_calls (calls : List FifoCall) :
    ∀ s : FifoState, runOps s (calls.map FifoOp.call) = runCalls s calls := by
  induction calls with
  | nil => intro s; rfl
  | cons c cs ih =>
    intro s
    simp only [List.map_cons, runOps, runCalls, opState]
    cases callState s c with
    | none => rfl
    | some s' => exact ih s'

theorem noAbort_accesses (s : FifoState) (h : NoAbort s) :
    ((s.count < s.depth ∨ 0 < s.count) → s.depth ≠ 0) ∧
    (∀ k, pushWriteIndex s = some k → 0 ≤ k ∧ k < MAX_DEPTH) ∧
    (∀ k, popReadIndex s = some k → 0 ≤ k ∧ k < MAX_DEPTH) ∧
    (∀ i : Int, 0 ≤ i → i < s.count →
      ∃ k, peekReadIndex s i = some k ∧ 0 ≤ k ∧ k < MAX_DEPTH) := by
  rcases h with ⟨hd, hc⟩ | hi
  · refine ⟨?_, ?_, ?_, ?_⟩
    · intro h; omega
    · intro k hk
      unfold pushWriteIndex at hk
      rw [if_pos (by omega)] at hk
      cases hk
    · intro k hk
      unfold popReadIndex at hk
      rw [if_pos (by omega)] at hk
      cases hk
    · intro i h0 h1; omega
  · have ha := inv_access_indices s.depth s hi
    have h1 := hi.2.1
    have h2 := hi.2.2.1
    refine ⟨?_, ?_, ?_, ?_⟩
    · intro _; omega
    · intro k hk
      have := ha.1 k hk
      omega
    · intro k hk
      have := ha.2.1 k hk
      omega
    · intro i h0 hlt
      obtain ⟨k, hk, hk0, hk1⟩ := ha.2.2 i h0 hlt
      exact ⟨k, hk, hk0, by omega⟩

/-- C14 (the model never aborts): from the static initial state every finite
sequence of calls, `c_fifo_init` with any argument included, runs to a state
without undefined behaviour; in the state reached `% depth` is evaluated only
with a non-zero depth and the indices a push would write and a pop or peek
would read lie in `[0, MAX_DEPTH)`. After a further `c_fifo_init(d)` with
`d ≤ 0` and any calls other than `c_fifo_init`, the depth is `d`, count is 0,
every push returns -1 and every pop and peek returns `0xFF`. -/
theorem model_never_aborts (ops : List FifoOp) :
    (∃ s, runOps staticInit ops = some s ∧
      ((s.count < s.depth ∨ 0 < s.count) → s.depth ≠ 0) ∧
      (∀ k, pushWriteIndex s = some k → 0 ≤ k ∧ k < MAX_DEPTH) ∧
      (∀ k, popReadIndex s = some k → 0 ≤ k ∧ k < MAX_DEPTH) ∧
      (∀ i : Int, 0 ≤ i → i < s.count →
        ∃ k, peekReadIndex s i = some k ∧ 0 ≤ k ∧ k < MAX_DEPTH)) ∧
    (∀ (d : Int) (calls : List FifoCall), d ≤ 0 →
      ∃ s, runOps staticInit (ops ++ FifoOp.init d :: calls.map FifoOp.call) = some s ∧
        s.depth = d ∧ s.count = 0 ∧
        (∀ b : Nat, ∃ s', c_fifo_push s b = some (-1, s') ∧ s'.count = 0) ∧
        (∃ s', c_fifo_pop s = some (0xFF, s') ∧ s'.count = 0) ∧
        (∀ i : Int, c_fifo_peek s i = some (0xFF, s))) := by
  have hstatic : NoAbort staticInit := Or.inr (by decide)
  obtain ⟨s, hs, hna⟩ := runOps_noAbort ops staticInit hstatic
  refine ⟨⟨s, hs, noAbort_accesses s hna⟩, ?_⟩
  intro d calls hd
  have hM : (MAX_DEPTH : Int) = 256 := rfl
  have hdepth : (c_fifo_init s d).depth = d := by
    simp only [c_fifo_init]
    rw [if_neg (by omega)]
  obtain ⟨s', hs', hd', hc'⟩ :=
    lowDepth_runCalls calls (c_fifo_init s d) (by omega) rfl
  refine ⟨s', ?_, by omega, hc', ?_, ?_, ?_⟩
  · rw [runOps_append ops _ staticInit s hs]
    simp only [runOps, opState]
    rw [runOps_calls]
    exact hs'
  · intro b
    exact ⟨_, push_full s' b (by omega), hc'⟩
  · exact ⟨_, pop_empty s' (by omega), hc'⟩
  · intro i
    exact peek_outside s' i (by omega)

/-! ## Refinement of the abstract bounded queue -/

theorem contents_nil_of_count (s : FifoState) (h : s.count = 0) : contents s = [] := by
  simp [contents, h]

theorem queueStep_refines (d : Int) (s : FifoState) (o : QueueOp) (h : Inv d s) :
    ∃ r s', queueStep s o = some (r, s') ∧ Inv d s' ∧
      (r, contents s') = absStep d (contents s) o := by
  have hlen : ((contents s).length : Int) = s.count := by
    rw [contents_length]
    have := h.2.2.2.2.1
    omega
  cases o with
  | push data =>
    by_cases hc : s.count < d
    · refine ⟨[0], _, by simp only [queueStep, push_free d s data h hc, Option.map_some'],
        push_free_inv d s data h hc, ?_⟩
      simp only [absStep]
      rw [if_pos (by omega), contents_push d s data h hc]
    · have hge : s.count ≥ s.depth := by rw [h.1]; omega
      refine ⟨[-1], { s with overflow_flag := 1 },
        by simp only [queueStep, push_full s data hge, Option.map_some'], h, ?_⟩
      simp only [absStep]
      rw [if_neg (by omega)]
      rfl
  | pop =>
    by_cases hc : 0 < s.count
    · refine ⟨[((s.fifo_mem.getD s.head.toNat 0 : Nat) : Int)], _,
        by simp only [queueStep, pop_avail d s h hc, Option.map_some'],
        pop_avail_inv d s h hc, ?_⟩
      rw [contents_pop d s h hc]
      simp only [absStep]
    · have hc0 : s.count = 0 := by have := h.2.2.2.2.1; omega
      refine ⟨[0xFF], { s with underflow_flag := 1 },
        by simp only [queueStep, pop_empty s (by omega), Option.map_some', Nat.cast_ofNat],
        h, ?_⟩
      have hnil : contents s = [] := contents_nil_of_count s hc0
      have hnil' : contents { s with underflow_flag := 1 } = [] :=
        contents_nil_of_count _ hc0
      rw [hnil', hnil]
      rfl
  | clear =>
    obtain ⟨s', hs', hi'⟩ := callState_inv d s FifoCall.clear h
    have : s' = c_fifo_clear s := by cases hs'; rfl
    subst this
    exact ⟨[], c_fifo_clear s, rfl, hi', by
      rw [contents_nil_of_count (c_fifo_clear s) rfl]; rfl⟩

theorem runQueue_refines (d : Int) (ops : List QueueOp) :
    ∀ s : FifoState, Inv d s →
      ∃ rets s', runQueue s ops = some (rets, s') ∧ Inv d s' ∧
        (rets, contents s') = absRun d (contents s) ops := by
  induction ops with
  | nil => intro s h; exact ⟨[], s, rfl, h, rfl⟩
  | cons o os ih =>
    intro s h
    obtain ⟨r, s1, hs1, hi1, hr1⟩ := queueStep_refines d s o h
    obtain ⟨rs, s2, hs2, hi2, hr2⟩ := ih s1 hi1
    refine ⟨r ++ rs, s2, by simp only [runQueue, hs1, hs2], hi2, ?_⟩
    simp only [absRun]
    rw [← hr1]
    simp only
    rw [← hr2]

/-- C20 (refinement of a bounded queue): for `1 ≤ d ≤ MAX_DEPTH`, every finite
sequence of push, pop and clear calls made after `c_fifo_init(d)` runs to a
state; the values the calls return and the list
`[fifo_mem[(head + i) mod depth] for i in 0..count-1]` of the final state are
those of the abstract bounded queue run from the empty list, that list has at
most `d` elements, `c_fifo_count()` is its length and
`tail == (head + count) mod depth`. -/
theorem circular_buffer_refines_queue (d : Int) (s0 : FifoState) (ops : List QueueOp)
    (hd1 : 1 ≤ d) (hd2 : d ≤ MAX_DEPTH) :
    ∃ rets s, runQueue (c_fifo_init s0 d) ops = some (rets, s) ∧
      (rets, contents s) = absRun d [] ops ∧
      ((contents s).length : Int) ≤ d ∧
      (c_fifo_count s).1 = ((contents s).length : Int) ∧
      s.tail = (s.head + s.count) % s.depth := by
  obtain ⟨rets, s, hrun, hi, href⟩ := runQueue_refines d ops _ (init_inv s0 d hd1 hd2)
  rw [contents_nil_of_count (c_fifo_init s0 d) rfl] at href
  have hlen : ((contents s).length : Int) = s.count := by
    rw [contents_length]
    have := hi.2.2.2.2.1
    omega
  refine ⟨rets, s, hrun, href, ?_, ?_, ?_⟩
  · rw [hlen]; exact hi.2.2.2.2.2.1
  · rw [hlen]; rfl
  · rw [hi.1]; exact hi.2.2.2.2.2.2.2.2

/-- C20 at depth 2 on calls that overflow, wrap around, clear and underflow. -/
theorem circular_buffer_refines_queue_witness :
    ((1 : Int) ≤ 2 ∧ (2 : Int) ≤ MAX_DEPTH) ∧
    absRun 2 [] wrapAroundOps = ([0, 0, -1, 1, 0, 2, 255, 0, 0, 5, 0, 6, 7, 255], []) ∧
    ∃ rets s, runQueue (c_fifo_init staticInit 2) wrapAroundOps = some (rets, s) ∧
      (rets, contents s) = absRun 2 [] wrapAroundOps ∧
      ((contents s).length : Int) ≤ 2 ∧
      (c_fifo_count s).1 = ((contents s).length : Int) ∧
      s.tail = (s.head + s.count) % s.depth :=
  ⟨⟨by decide, by decide⟩, by decide,
    circular_buffer_refines_queue 2 staticInit wrapAroundOps (by decide) (by decide)⟩

/-- C14 on a run that pushes, re-initialises with depth -3 and then pushes, pops
and peeks. -/
theorem model_never_aborts_witness :
    ∃ s, runOps staticInit
        ([FifoOp.call (.push 1)] ++
          FifoOp.init (-3) :: [FifoCall.push 7, .pop, .peek 0].map FifoOp.call) = some s ∧
      s.depth = -3 ∧ s.count = 0 ∧
      (∀ b : Nat, ∃ s', c_fifo_push s b = some (-1, s') ∧ s'.count = 0) ∧
      (∃ s', c_fifo_pop s = some (0xFF, s') ∧ s'.count = 0) ∧
      (∀ i : Int, c_fifo_peek s i = some (0xFF, s)) :=
  (model_never_aborts [FifoOp.call (.push 1)]).2 (-3) [FifoCall.push 7, .pop, .peek 0]
    (by decide)

end FifoModel

namespace TestUtils

/-! ## Arithmetic and buffer helpers -/

theorem intResult_ok (x : Int) (h0 : -2147483648 ≤ x) (h1 : x ≤ 2147483647) :
    intResult x = some x := by
  unfold intResult
  rw [if_pos ⟨h0, h1⟩]

theorem intResult_natCast_add (a b : Nat) (h : ((a + b : Nat) : Int) ≤ 2147483647) :
    intResult ((a : Int) + (b : Int)) = some ((a + b : Nat) : Int) := by
  rw [intResult_ok _ (by omega) (by omega), Nat.cast_add]

theorem intResult_natCast_succ (a : Nat) (h : (a : Int) < 2147483647) :
    intResult ((a : Int) + 1) = some ((a + 1 : Nat) : Int) := by
  rw [intResult_ok _ (by omega) (by omega), Nat.cast_add, Nat.cast_one]

theorem intResult_natCast_sub (a b : Nat) (hba : b ≤ a) (h : (a : Int) ≤ 2147483647) :
    intResult ((a : Int) - (b : Int)) = some ((a - b : Nat) : Int) := by
  rw [intResult_ok _ (by omega) (by omega), Nat.cast_sub hba]

theorem mirrorIndex_ok (n k : Nat) (hk : k < n) (h : (n : Int) ≤ 2147483647) :
    mirrorIndex (n : Int) (k : Int) = some ((n - 1 - k : Nat) : Int) := by
  unfold mirrorIndex
  rw [intResult_ok _ (by omega) (by omega)]
  simp only
  rw [intResult_ok _ (by omega) (by omega)]
  congr 1
  omega

theorem toUChar_tmod (x : Int) : toUChar (Int.tmod x 256) = (x % 256).toNat := by
  have h := Int.tmod_add_tdiv x 256
  unfold toUChar
  congr 1
  omega

theorem load_ok (a : List Nat) (i : Nat) : load a (i : Int) = a[i]? := by
  unfold load
  rw [if_pos (by omega), Int.toNat_ofNat]

theorem store_ok (a : List Nat) (i : Nat) (v : Nat) (h : i < a.length) :
    store a (i : Int) v = some (a.set i v) := by
  unfold store
  rw [if_pos ⟨by omega, by rw [Int.toNat_ofNat]; exact h⟩, Int.toNat_ofNat]

/-! ## The fill loop -/

theorem fillLoop_spec (value : Int → Option Nat) (f : Nat → Nat) (size : Nat)
    (hmax : (size : Int) ≤ 2147483647)
    (hval : ∀ k : Nat, k < size → value (k : Int) = some (f k)) :
    ∀ (fuel i : Nat) (data : List Nat), i ≤ size → size ≤ data.length →
      size - i < fuel →
      ∃ out, fillLoop value size fuel (i : Int) data = some out ∧
        out.length = data.length ∧
        (∀ k : Nat, i ≤ k → k < size → out[k]? = some (f k)) ∧
        (∀ k : Nat, k < i ∨ size ≤ k → out[k]? = data[k]?) := by
  intro fuel
  induction fuel with
  | zero => intro i data _ _ hf; omega
  | succ fuel ih =>
    intro i data hi hlen hf
    by_cases hlt : i < size
    · obtain ⟨out, hout, hl, hin, hout'⟩ :=
        ih (i + 1) (data.set i (f i)) (by omega)
          (by rw [List.length_set]; exact hlen) (by omega)
      refine ⟨out, ?_, ?_, ?_, ?_⟩
      · rw [fillLoop, if_pos (by omega), hval i hlt, intResult_natCast_succ i (by omega)]
        simp only
        rw [store_ok data i _ (by omega)]
        exact hout
      · rw [hl, List.length_set]
      · intro k hk1 hk2
        by_cases hki : k = i
        · subst hki
          rw [hout' k (Or.inl (by omega)), List.getElem?_set_self (by omega)]
        · exact hin k (by omega) hk2
      · intro k hk
        rw [hout' k (by omega), List.getElem?_set_ne (by omega)]
    · refine ⟨data, ?_, rfl, ?_, fun _ _ => rfl⟩
      · rw [fillLoop, if_neg (by omega)]
      · intro k hk1 hk2; omega

theorem fillLoop_undefined (value : Int → Option Nat) (size k : Int)
    (hk : value k = none) (hks : k < size) :
    ∀ (fuel : Nat) (i : Int) (data : List Nat), i ≤ k →
      fillLoop value size fuel i data = none := by
  intro fuel
  induction fuel with
  | zero => intro i data _; rw [fillLoop]
  | succ fuel ih =>
    intro i data hik
    rw [fillLoop, if_pos (by omega)]
    by_cases heq : i = k
    · rw [heq, hk]
    · cases hr : intResult (i + 1) with
      | none =>
        cases value i with
        | none => rfl
        | some v =>
          simp only
          cases store data i v with
          | none => rfl
          | some data1 => rfl
      | some i1 =>
        have hi1 : i1 = i + 1 := by
          unfold intResult at hr
          split at hr
          · exact (Option.some.inj hr).symm
          · cases hr
        cases value i with
        | none => rfl
        | some v =>
          simp only
          cases store data i v with
          | none => rfl
          | some data1 => exact ih i1 data1 (by omega)

theorem intResult_overflow (x : Int) (h : 2147483647 < x) : intResult x = none := by
  unfold intResult
  rw [if_neg]
  unfold INT_MAX
  omega

theorem incrementing_value (start k : Nat) (h : ((start + k : Nat) : Int) ≤ 2147483647) :
    (intResult ((start : Int) + (k : Int))).map (fun x => toUChar (Int.tmod x 256)) =
      some ((((start : Int) + (k : Int)) % 256).toNat) := by
  rw [intResult_ok _ (by omega) (by omega), Option.map_some', toUChar_tmod]

theorem decrementing_value (start k : Nat) (hs : start < 256)
    (h : (k : Int) ≤ 2147483647) :
    (intResult ((start : Int) - (k : Int))).map (fun x => toUChar (Int.tmod x 256)) =
      some ((((start : Int) - (k : Int)) % 256).toNat) := by
  rw [intResult_ok _ (by omega) (by omega), Option.map_some', toUChar_tmod]

/-- C17, refuted as stated: with start byte 255, size `INT_MAX` and a buffer of
`INT_MAX` bytes the `int` addition `start + i` of `c_generate_incrementing`
overflows at index 2147483393, so the call is undefined and writes no defined
fill. -/
theorem generate_incrementing_overflow :
    ((255 : Nat) < 256 ∧ (0 : Int) ≤ 2147483647 ∧ (2147483647 : Int) ≤ INT_MAX ∧
      (2147483647 : Int) ≤ ((List.replicate 2147483647 (0 : Nat)).length : Int)) ∧
    c_generate_incrementing (List.replicate 2147483647 0) 2147483647 255 = none ∧
    ¬ ∃ out, c_generate_incrementing (List.replicate 2147483647 0) 2147483647 255 = some out ∧
      ∀ i : Nat, (i : Int) < 2147483647 →
        out[i]? = some (((((255 : Nat) : Int) + (i : Int)) % 256).toNat) := by
  have hnone :
      c_generate_incrementing (List.replicate 2147483647 0) 2147483647 255 = none := by
    unfold c_generate_incrementing
    exact fillLoop_undefined _ 2147483647 2147483393
      (by rw [intResult_overflow _ (by decide)]; rfl) (by decide) _ 0 _ (by decide)
  refine ⟨⟨by decide, by decide, by decide, ?_⟩, hnone, ?_⟩
  · rw [List.length_replicate]
    decide
  · intro h
    obtain ⟨out, hout, _⟩ := h
    rw [hnone] at hout
    cases hout

/-- C17, amended: for a start byte `s`, a size `0 ≤ size` and a buffer of at
least `size` bytes, `c_generate_decrementing` writes `(s - i) mod 256` at every
index `i < size`, and so does `c_generate_incrementing` with `(s + i) mod 256`
provided `s + size - 1 ≤ INT_MAX`; `mod` is the non-negative remainder and the
bytes from `size` on are left as they were. When `s + size - 1 > INT_MAX` the
`int` addition `start + i` overflows and the incrementing call is undefined. -/
theorem generate_fills_mod_256 (data : List Nat) (size : Int) (start : Nat)
    (hs : start < 256) (h0 : 0 ≤ size) (hmax : size ≤ INT_MAX)
    (hlen : size ≤ (data.length : Int)) :
    ((start : Int) + size - 1 ≤ INT_MAX →
      ∃ out, c_generate_incrementing data size start = some out ∧
        out.length = data.length ∧
        (∀ i : Nat, (i : Int) < size →
          out[i]? = some ((((start : Int) + (i : Int)) % 256).toNat) ∧
          (((start : Int) + (i : Int)) % 256).toNat < 256) ∧
        (∀ i : Nat, size ≤ (i : Int) → out[i]? = data[i]?)) ∧
    (INT_MAX < (start : Int) + size - 1 →
      c_generate_incrementing data size start = none) ∧
    (∃ out, c_generate_decrementing data size start = some out ∧
      out.length = data.length ∧
      (∀ i : Nat, (i : Int) < size →
        out[i]? = some ((((start : Int) - (i : Int)) % 256).toNat) ∧
        (((start : Int) - (i : Int)) % 256).toNat < 256) ∧
      (∀ i : Nat, size ≤ (i : Int) → out[i]? = data[i]?)) := by
  obtain ⟨n, rfl⟩ : ∃ n : Nat, size = (n : Int) := ⟨size.toNat, by omega⟩
  have hlen' : n ≤ data.length := by omega
  have hmax' : (n : Int) ≤ 2147483647 := hmax
  refine ⟨?_, ?_, ?_⟩
  · intro hov
    have hov' : (start : Int) + (n : Int) - 1 ≤ 2147483647 := hov
    obtain ⟨out, hout, hl, hin, hrest⟩ :=
      fillLoop_spec
        (fun i => (intResult ((start : Int) + i)).map (fun x => toUChar (Int.tmod x 256)))
        (fun k => (((start : Int) + (k : Int)) % 256).toNat) n hmax'
        (fun k hk => incrementing_value start k (by omega))
        (n + 1) 0 data (by omega) hlen' (by omega)
    refine ⟨out, ?_, hl, ?_, ?_⟩
    · simp only [c_generate_incrementing, Int.toNat_ofNat]
      exact hout
    · intro i hi
      rw [hin i (by omega) (by omega)]
      exact ⟨rfl, by omega⟩
    · intro i hi
      exact hrest i (Or.inr (by omega))
  · intro hov
    have hov' : 2147483647 < (start : Int) + (n : Int) - 1 := hov
    unfold c_generate_incrementing
    exact fillLoop_undefined _ (n : Int) (2147483648 - (start : Int))
      (by
        show (intResult ((start : Int) + (2147483648 - (start : Int)))).map _ = none
        rw [intResult_overflow _ (by omega)]
        rfl)
      (by omega) _ 0 _ (by omega)
  · obtain ⟨out, hout, hl, hin, hrest⟩ :=
      fillLoop_spec
        (fun i => (intResult ((start : Int) - i)).map (fun x => toUChar (Int.tmod x 256)))
        (fun k => (((start : Int) - (k : Int)) % 256).toNat) n hmax'
        (fun k hk => decrementing_value start k hs (by omega))
        (n + 1) 0 data (by omega) hlen' (by omega)
    refine ⟨out, ?_, hl, ?_, ?_⟩
    · simp only [c_generate_decrementing, Int.toNat_ofNat]
      exact hout
    · intro i hi
      rw [hin i (by omega) (by omega)]
      exact ⟨rfl, by omega⟩
    · intro i hi
      exact hrest i (Or.inr (by omega))

/-- C17, amended, on a buffer of four bytes with size 3: the incrementing fill
from 254 wraps to 0 and the decrementing fill from 1 wraps to 255. -/
theorem generate_fills_mod_256_witness :
    ((254 : Nat) < 256 ∧ (0 : Int) ≤ 3 ∧ (3 : Int) ≤ INT_MAX ∧
      (3 : Int) ≤ (([0, 0, 0, 9] : List Nat).length : Int) ∧
      ((254 : Nat) : Int) + 3 - 1 ≤ INT_MAX) ∧
    c_generate_incrementing [0, 0, 0, 9] 3 254 = some [254, 255, 0, 9] ∧
    c_generate_decrementing [0, 0, 0, 9] 3 254 = some [254, 253, 252, 9] ∧
    c_generate_decrementing [0, 0, 0, 9] 3 1 = some [1, 0, 255, 9] ∧
    (∃ out, c_generate_incrementing [0, 0, 0, 9] 3 254 = some out ∧
      out.length = 4 ∧
      (∀ i : Nat, (i : Int) < 3 →
        out[i]? = some ((((254 : Nat) : Int) + (i : Int)) % 256).toNat ∧
        ((((254 : Nat) : Int) + (i : Int)) % 256).toNat < 256) ∧
      (∀ i : Nat, (3 : Int) ≤ (i : Int) → out[i]? = ([0, 0, 0, 9] : List Nat)[i]?)) ∧
    (∃ out, c_generate_decrementing [0, 0, 0, 9] 3 254 = some out ∧
      out.length = 4 ∧
      (∀ i : Nat, (i : Int) < 3 →
        out[i]? = some ((((254 : Nat) : Int) - (i : Int)) % 256).toNat ∧
        ((((254 : Nat) : Int) - (i : Int)) % 256).toNat < 256) ∧
      (∀ i : Nat, (3 : Int) ≤ (i : Int) → out[i]? = ([0, 0, 0, 9] : List Nat)[i]?)) :=
  have h := generate_fills_mod_256 [0, 0, 0, 9] 3 254 (by decide) (by decide) (by decide)
    (by decide)
  ⟨⟨by decide, by decide, by decide, by decide, by decide⟩, by decide, by decide,
    by decide, h.1 (by decide), h.2.2⟩

/-! ## The reversal loop -/

theorem getElem?_getD (l : List Nat) (i : Nat) (h : i < l.length) :
    l[i]? = some (l.getD i 0) := by
  rw [List.getD_eq_getElem?_getD, List.getElem?_eq_getElem h]
  rfl

theorem reverseLoop_spec (orig : List Nat) (n : Nat) (hmax : (n : Int) ≤ INT_MAX)
    (hlen : n ≤ orig.length) :
    ∀ (fuel k : Nat) (cur : List Nat), k ≤ n / 2 → n / 2 - k < fuel →
      cur.length = orig.length →
      (∀ j : Nat, cur[j]? =
        if j < k ∨ (n - k ≤ j ∧ j < n) then orig[n - 1 - j]? else orig[j]?) →
      ∃ out, reverseLoop n fuel (k : Int) cur = some out ∧ out.length = orig.length ∧
        ∀ j : Nat, out[j]? =
          if j < n / 2 ∨ (n - n / 2 ≤ j ∧ j < n) then orig[n - 1 - j]? else orig[j]? := by
  have htd : Int.tdiv (n : Int) 2 = ((n / 2 : Nat) : Int) := by
    rw [Int.tdiv_eq_ediv (by omega) (by omega)]
    omega
  have hmax' : (n : Int) ≤ 2147483647 := hmax
  intro fuel
  induction fuel with
  | zero => intro k cur _ hf; omega
  | succ fuel ih =>
    intro k cur hk hf hcl hP
    by_cases hlt : k < n / 2
    · have hck : cur[k]? = some (orig.getD k 0) := by
        rw [hP k, if_neg (by omega), getElem?_getD orig k (by omega)]
      have hcm : cur[n - 1 - k]? = some (orig.getD (n - 1 - k) 0) := by
        rw [hP (n - 1 - k), if_neg (by omega), getElem?_getD orig _ (by omega)]
      obtain ⟨out, hout, hl, hfin⟩ :=
        ih (k + 1) ((cur.set k (orig.getD (n - 1 - k) 0)).set (n - 1 - k) (orig.getD k 0))
          (by omega) (by omega) (by simp only [List.length_set]; exact hcl) (by
            intro j
            rw [List.getElem?_set, List.getElem?_set]
            simp only [List.length_set]
            by_cases hj1 : n - 1 - k = j
            · rw [if_pos hj1, if_pos (by omega), if_pos (by omega)]
              have : n - 1 - j = k := by omega
              rw [this, getElem?_getD orig k (by omega)]
            · rw [if_neg hj1]
              by_cases hj2 : k = j
              · rw [if_pos hj2, if_pos (by omega), if_pos (by omega)]
                subst hj2
                rw [getElem?_getD orig _ (by omega)]
              · rw [if_neg hj2, hP j]
                by_cases hc : j < k ∨ (n - k ≤ j ∧ j < n)
                · rw [if_pos hc, if_pos (by omega)]
                · rw [if_neg hc, if_neg (by omega)])
      refine ⟨out, ?_, hl, hfin⟩
      rw [reverseLoop, if_pos (by rw [htd]; omega), mirrorIndex_ok n k (by omega) hmax',
        intResult_natCast_succ k (by omega), load_ok, hck]
      simp only [Option.some_bind]
      rw [load_ok, hcm]
      simp only
      rw [store_ok _ _ _ (by omega)]
      simp only
      rw [store_ok _ _ _ (by rw [List.length_set]; omega)]
      exact hout
    · have hk2 : k = n / 2 := by omega
      subst hk2
      refine ⟨cur, ?_, hcl, hP⟩
      rw [reverseLoop, if_neg (by rw [htd]; omega)]

theorem reverse_pointwise (orig : List Nat) (n : Nat) (hmax : (n : Int) ≤ INT_MAX)
    (hlen : n ≤ orig.length) :
    ∃ out, c_reverse_array orig (n : Int) = some out ∧ out.length = orig.length ∧
      ∀ j : Nat, out[j]? = if j < n then orig[n - 1 - j]? else orig[j]? := by
  obtain ⟨out, hout, hl, hfin⟩ :=
    reverseLoop_spec orig n hmax hlen (n / 2 + 1) 0 orig (by omega) (by omega) rfl (by
      intro j
      rw [if_neg (by omega)])
  refine ⟨out, ?_, hl, ?_⟩
  · simp only [c_reverse_array, Int.toNat_ofNat]
    exact hout
  · intro j
    rw [hfin j]
    by_cases hj : j < n
    · rw [if_pos hj]
      by_cases hc : j < n / 2 ∨ (n - n / 2 ≤ j ∧ j < n)
      · rw [if_pos hc]
      · rw [if_neg hc]
        have : n - 1 - j = j := by omega
        rw [this]
    · rw [if_neg hj, if_neg (by omega)]

/-- C16 (in-place reversal): for `0 ≤ size` and a buffer of at least `size`
bytes, after `c_reverse_array(data, size)` the element at every index
`i < size` is the original element at `size - 1 - i`, the bytes from `size` on
are unchanged, and a second call with the same size gives back the original
buffer. -/
theorem reverse_array_reverses (data : List Nat) (size : Int)
    (h0 : 0 ≤ size) (hmax : size ≤ INT_MAX) (hlen : size ≤ (data.length : Int)) :
    ∃ out, c_reverse_array data size = some out ∧ out.length = data.length ∧
      (∀ i : Nat, (i : Int) < size → out[i]? = data[size.toNat - 1 - i]?) ∧
      (∀ i : Nat, size ≤ (i : Int) → out[i]? = data[i]?) ∧
      c_reverse_array out size = some data := by
  obtain ⟨n, rfl⟩ : ∃ n : Nat, size = (n : Int) := ⟨size.toNat, by omega⟩
  have hlen' : n ≤ data.length := by omega
  obtain ⟨out, hout, hl, hp⟩ := reverse_pointwise data n hmax hlen'
  obtain ⟨out2, hout2, _, hp2⟩ := reverse_pointwise out n hmax (by omega)
  refine ⟨out, hout, hl, ?_, ?_, ?_⟩
  · intro i hi
    rw [hp i, if_pos (by omega), Int.toNat_ofNat]
  · intro i hi
    rw [hp i, if_neg (by omega)]
  · rw [hout2]
    congr 1
    apply List.ext_getElem?
    intro j
    rw [hp2 j]
    by_cases hj : j < n
    · rw [if_pos hj, hp (n - 1 - j), if_pos (by omega)]
      congr 1
      omega
    · rw [if_neg hj, hp j, if_neg hj]

/-- C16 on an odd and an even size: five of six bytes, then four of four. -/
theorem reverse_array_reverses_witness :
    ((0 : Int) ≤ 5 ∧ (5 : Int) ≤ INT_MAX ∧
      (5 : Int) ≤ (([1, 2, 3, 4, 5, 9] : List Nat).length : Int)) ∧
    c_reverse_array [1, 2, 3, 4, 5, 9] 5 = some [5, 4, 3, 2, 1, 9] ∧
    c_reverse_array [1, 2, 3, 4] 4 = some [4, 3, 2, 1] ∧
    ∃ out, c_reverse_array [1, 2, 3, 4, 5, 9] 5 = some out ∧ out.length = 6 ∧
      (∀ i : Nat, (i : Int) < 5 →
        out[i]? = ([1, 2, 3, 4, 5, 9] : List Nat)[(5 : Int).toNat - 1 - i]?) ∧
      (∀ i : Nat, (5 : Int) ≤ (i : Int) → out[i]? = ([1, 2, 3, 4, 5, 9] : List Nat)[i]?) ∧
      c_reverse_array out 5 = some [1, 2, 3, 4, 5, 9] :=
  ⟨⟨by decide, by decide, by decide⟩, by decide, by decide,
    reverse_array_reverses [1, 2, 3, 4, 5, 9] 5 (by decide) (by decide) (by decide)⟩

/-! ## The search loops -/

theorem matchLoop_spec (data pattern : List Nat) (m i : Nat)
    (hmax : ((i + m : Nat) : Int) ≤ INT_MAX) (hd : i + m ≤ data.length)
    (hp : m ≤ pattern.length) :
    ∀ (fuel j : Nat), j ≤ m → m - j < fuel →
      ∃ b, matchLoop data pattern (m : Int) (i : Int) fuel (j : Int) = some b ∧
        (b = true ↔ ∀ j' : Nat, j ≤ j' → j' < m → data[i + j']? = pattern[j']?) := by
  unfold INT_MAX at hmax
  intro fuel
  induction fuel with
  | zero => intro j _ hf; omega
  | succ fuel ih =>
    intro j hj hf
    by_cases hlt : j < m
    · have ha := getElem?_getD data (i + j) (by omega)
      have hb := getElem?_getD pattern j (by omega)
      by_cases hne : data.getD (i + j) 0 ≠ pattern.getD j 0
      · refine ⟨false, ?_, ?_⟩
        · rw [matchLoop, if_pos (by omega), intResult_natCast_add i j (by omega),
            Option.some_bind, load_ok, load_ok, ha, hb]
          simp only
          rw [if_pos hne]
        · constructor
          · intro h; cases h
          · intro h
            have := h j (by omega) hlt
            rw [ha, hb] at this
            exact absurd (Option.some.inj this) hne
      · have heq : data.getD (i + j) 0 = pattern.getD j 0 := not_not.mp hne
        obtain ⟨b, hrun, hiff⟩ := ih (j + 1) (by omega) (by omega)
        refine ⟨b, ?_, ?_⟩
        · rw [matchLoop, if_pos (by omega), intResult_natCast_add i j (by omega),
            intResult_natCast_succ j (by omega), Option.some_bind, load_ok, load_ok,
            ha, hb]
          simp only
          rw [if_neg hne]
          exact hrun
        · rw [hiff]
          constructor
          · intro h j' hj1 hj2
            by_cases hjj : j' = j
            · subst hjj
              rw [ha, hb, heq]
            · exact h j' (by omega) hj2
          · intro h j' hj1 hj2
            exact h j' (by omega) hj2
    · refine ⟨true, ?_, ?_⟩
      · rw [matchLoop, if_neg (by omega)]
      · constructor
        · intro _ j' hj1 hj2; omega
        · intro _; rfl

theorem matchLoop_matchAt (data pattern : List Nat) (m i : Nat)
    (hmax : ((i + m : Nat) : Int) ≤ INT_MAX) (hd : i + m ≤ data.length)
    (hp : m ≤ pattern.length) :
    ∃ b, matchLoop data pattern (m : Int) (i : Int) (m + 1) 0 = some b ∧
      (b = true ↔ MatchAt data pattern m i) := by
  obtain ⟨b, hb, hiff⟩ := matchLoop_spec data pattern m i hmax hd hp (m + 1) 0
    (by omega) (by omega)
  refine ⟨b, hb, ?_⟩
  rw [hiff]
  unfold MatchAt
  constructor
  · intro h j hj; exact h j (by omega) hj
  · intro h j _ hj; exact h j hj

theorem findLoop_spec (data pattern : List Nat) (n m : Nat)
    (hmax : (n : Int) ≤ INT_MAX) (hmn : m ≤ n) (hd : n ≤ data.length)
    (hp : m ≤ pattern.length) :
    ∀ (fuel i : Nat), i ≤ n - m + 1 → n - m + 1 - i < fuel →
      ∃ r, findLoop data (n : Int) pattern (m : Int) fuel (i : Int) = some r ∧
        ((r = -1 ∧ ∀ i' : Nat, i ≤ i' → i' ≤ n - m → ¬ MatchAt data pattern m i') ∨
          (∃ r' : Nat, r = (r' : Int) ∧ i ≤ r' ∧ r' ≤ n - m ∧ MatchAt data pattern m r' ∧
            ∀ i' : Nat, i ≤ i' → i' < r' → ¬ MatchAt data pattern m i')) := by
  have hmax' : (n : Int) ≤ 2147483647 := hmax
  intro fuel
  induction fuel with
  | zero => intro i _ hf; omega
  | succ fuel ih =>
    intro i hi hf
    by_cases hle : i ≤ n - m
    · obtain ⟨b, hb, hiff⟩ := matchLoop_matchAt data pattern m i
        (by unfold INT_MAX; omega) (by omega) hp
      cases b with
      | true =>
        refine ⟨(i : Int), ?_, Or.inr ⟨i, rfl, Nat.le_refl i, hle, hiff.mp rfl, ?_⟩⟩
        · rw [findLoop, intResult_natCast_sub n m hmn hmax']
          simp only
          rw [if_pos (by omega), Int.toNat_ofNat, hb]
        · intro i' h1 h2; omega
      | false =>
        have hno : ¬ MatchAt data pattern m i := by
          intro h
          exact absurd (hiff.mpr h) (by decide)
        have hm1 : 1 ≤ m := by
          by_contra hc
          have hm0 : m = 0 := by omega
          apply hno
          intro j hj
          omega
        obtain ⟨r, hr, hcases⟩ := ih (i + 1) (by omega) (by omega)
        refine ⟨r, ?_, ?_⟩
        · rw [findLoop, intResult_natCast_sub n m hmn hmax',
            intResult_natCast_succ i (by omega)]
          simp only
          rw [if_pos (by omega), Int.toNat_ofNat, hb]
          exact hr
        · rcases hcases with ⟨hr1, hall⟩ | ⟨r', hr', h1, h2, h3, h4⟩
          · left
            refine ⟨hr1, ?_⟩
            intro i' hi1 hi2
            by_cases hii : i' = i
            · subst hii; exact hno
            · exact hall i' (by omega) hi2
          · right
            refine ⟨r', hr', by omega, h2, h3, ?_⟩
            intro i' hi1 hi2
            by_cases hii : i' = i
            · subst hii; exact hno
            · exact h4 i' (by omega) hi2
    · refine ⟨-1, ?_, Or.inl ⟨rfl, ?_⟩⟩
      · rw [findLoop, intResult_natCast_sub n m hmn hmax']
        simp only
        rw [if_neg (by omega)]
      · intro i' h1 h2; omega

/-- C15 (pattern search): for `0 ≤ data_size`, `0 ≤ pattern_size` and buffers
of at least these sizes, `c_find_pattern` returns a value `r` that is -1 or
lies in `[0, data_size - pattern_size]`; when `r ≥ 0` the pattern occurs at `r`
and at no smaller index; `r` is -1 exactly when the pattern occurs at no index
of `[0, data_size - pattern_size]`, in particular when
`pattern_size > data_size`; an empty pattern gives 0. -/
theorem find_pattern_first_match (data : List Nat) (data_size : Int)
    (pattern : List Nat) (pattern_size : Int)
    (hd0 : 0 ≤ data_size) (hp0 : 0 ≤ pattern_size)
    (hdmax : data_size ≤ INT_MAX) (hpmax : pattern_size ≤ INT_MAX)
    (hdl : data_size ≤ (data.length : Int)) (hpl : pattern_size ≤ (pattern.length : Int)) :
    ∃ r, c_find_pattern data data_size pattern pattern_size = some r ∧
      (r = -1 ∨ (0 ≤ r ∧ r ≤ data_size - pattern_size)) ∧
      (0 ≤ r → MatchAt data pattern pattern_size.toNat r.toNat ∧
        ∀ i : Nat, (i : Int) < r → ¬ MatchAt data pattern pattern_size.toNat i) ∧
      (r = -1 ↔ ∀ i : Nat, (i : Int) ≤ data_size - pattern_size →
        ¬ MatchAt data pattern pattern_size.toNat i) ∧
      (pattern_size > data_size → r = -1) ∧
      (pattern_size = 0 → r = 0) := by
  obtain ⟨n, rfl⟩ : ∃ n : Nat, data_size = (n : Int) := ⟨data_size.toNat, by omega⟩
  obtain ⟨m, rfl⟩ : ∃ m : Nat, pattern_size = (m : Int) := ⟨pattern_size.toNat, by omega⟩
  simp only [Int.toNat_ofNat]
  by_cases hgt : (m : Int) > (n : Int)
  · refine ⟨-1, ?_, Or.inl rfl, ?_, ?_, fun _ => rfl, ?_⟩
    · unfold c_find_pattern
      rw [if_pos hgt]
    · intro h; omega
    · constructor
      · intro _ i hi; omega
      · intro _; rfl
    · intro h; omega
  · have hmn : m ≤ n := by omega
    obtain ⟨r, hr, hcases⟩ := findLoop_spec data pattern n m hdmax hmn (by omega) (by omega)
      (n - m + 2) 0 (by omega) (by omega)
    have hrun : c_find_pattern data (n : Int) pattern (m : Int) = some r := by
      unfold c_find_pattern
      rw [if_neg hgt]
      have : ((n : Int) - (m : Int)).toNat + 2 = n - m + 2 := by omega
      rw [this]
      exact hr
    rcases hcases with ⟨hr1, hall⟩ | ⟨r', hr', _, h2, h3, h4⟩
    · subst hr1
      refine ⟨-1, hrun, Or.inl rfl, ?_, ?_, fun _ => rfl, ?_⟩
      · intro h; omega
      · constructor
        · intro _ i hi
          exact hall i (by omega) (by omega)
        · intro _; rfl
      · intro hm0
        have hm : m = 0 := by omega
        exfalso
        apply hall 0 (by omega) (by omega)
        intro j hj
        omega
    · subst hr'
      refine ⟨(r' : Int), hrun, Or.inr ⟨by omega, by omega⟩, ?_, ?_, ?_, ?_⟩
      · intro _
        rw [Int.toNat_ofNat]
        exact ⟨h3, fun i hi => h4 i (by omega) (by omega)⟩
      · constructor
        · intro h; omega
        · intro h
          exact absurd h3 (h r' (by omega))
      · intro h; omega
      · intro hm0
        have hm : m = 0 := by omega
        by_contra hne
        have hpos : 0 < r' := by omega
        apply h4 0 (by omega) hpos
        intro j hj
        omega

/-- C15 on five bytes: the pattern 2, 3 occurs at 1 and 3 and the first
occurrence is returned. -/
theorem find_pattern_first_match_witness :
    ((0 : Int) ≤ 5 ∧ (0 : Int) ≤ 2 ∧ (5 : Int) ≤ INT_MAX ∧ (2 : Int) ≤ INT_MAX ∧
      (5 : Int) ≤ (([1, 2, 3, 2, 3] : List Nat).length : Int) ∧
      (2 : Int) ≤ (([2, 3] : List Nat).length : Int)) ∧
    c_find_pattern [1, 2, 3, 2, 3] 5 [2, 3] 2 = some 1 ∧
    c_find_pattern [1, 2, 3, 2, 3] 5 [3, 3] 2 = some (-1) ∧
    c_find_pattern [1, 2] 2 [] 0 = some 0 ∧
    ∃ r, c_find_pattern [1, 2, 3, 2, 3] 5 [2, 3] 2 = some r ∧
      (r = -1 ∨ (0 ≤ r ∧ r ≤ 5 - 2)) ∧
      (0 ≤ r → MatchAt [1, 2, 3, 2, 3] [2, 3] (2 : Int).toNat r.toNat ∧
        ∀ i : Nat, (i : Int) < r → ¬ MatchAt [1, 2, 3, 2, 3] [2, 3] (2 : Int).toNat i) ∧
      (r = -1 ↔ ∀ i : Nat, (i : Int) ≤ 5 - 2 →
        ¬ MatchAt [1, 2, 3, 2, 3] [2, 3] (2 : Int).toNat i) ∧
      ((2 : Int) > 5 → r = -1) ∧
      ((2 : Int) = 0 → r = 0) :=
  ⟨⟨by decide, by decide, by decide, by decide, by decide, by decide⟩,
    by decide, by decide, by decide,
    find_pattern_first_match [1, 2, 3, 2, 3] 5 [2, 3] 2 (by decide) (by decide)
      (by decide) (by decide) (by decide) (by decide)⟩

end TestUtils
